import Mathlib

/-!
Verification development for the Sunaba front-end (tokeniser + parser).

The definitions below are a shallow embedding of the TypeScript source:
`tokeniser.ts` (`parseToTokens`, a.k.a. `tokenise`) and `parser.ts`
(`parseExpression`, `parse`).  Machine strings are modelled as `List Char`
(JavaScript iterates codepoints with `for..of`; a codepoint of value
≥ 0x10000 occupies two UTF-16 units, which is what the tokeniser's `row`
accounting uses).  Fallible code returns `Except PErr`; a JavaScript
`TypeError` caused by a property access on `undefined` is modelled by the
distinguished error `PErr.typeError`, a thrown `ParseError` by
`PErr.parseError` with the exact message string.
-/

namespace Sunaba

/-- Error outcomes: a thrown `ParseError` carrying its message, or a
JavaScript runtime `TypeError` (property access on `undefined`). -/
inductive PErr where
  | parseError (message : String)
  | typeError
deriving DecidableEq, Repr

/-- Builds the message `"<column>: <text>"` (template `` `${column}: ...` ``). -/
def msg1 (column : Nat) (text : String) : String :=
  toString column ++ ": " ++ text

/-- Builds the message `"<column> <row>: <text>"` (template `` `${column} ${row}: ...` ``). -/
def msg2 (column : Nat) (row : Nat) (text : String) : String :=
  toString column ++ " " ++ toString row ++ ": " ++ text

/-- The `Token` tagged union of `tokeniser.ts`.  Operator values are the
literal strings of the TypeScript `Operator` union. -/
inductive Token where
  | identifierToken (value : String)
  | memoryToken
  | ifToken
  | whileToken
  | defToken
  | constToken
  | numericLiteralToken (value : String)
  | operatorToken (value : String)
  | separatorToken
  | assignmentToken
  | parentheseStartToken
  | parentheseEndToken
  | bracketStartToken
  | bracketEndToken
deriving DecidableEq, Repr

/-- A token together with its `row` (`Token & { row: number }`). -/
structure RToken where
  tok : Token
  row : Nat
deriving DecidableEq, Repr

/-- `LineToken` of `tokeniser.ts`. -/
structure LineToken where
  column : Nat
  indent : Nat
  tokens : List RToken
deriving DecidableEq, Repr

/-- The number of UTF-16 units of a codepoint (`codePoint.length` in JS). -/
def charWidth (c : Char) : Nat :=
  if c.toNat < 0x10000 then 1 else 2

/-- `isNumberCodePoint`: ASCII digit. -/
def isNumberCodePoint (c : Char) : Bool :=
  48 ≤ c.toNat && c.toNat ≤ 57

/-- `isIdentifierCodePoint`: `@ $ ? _ '`, ASCII letters and digits, or any
codepoint of value ≥ 0x100. -/
def isIdentifierCodePoint (c : Char) : Bool :=
  c = '@' || c = '$' || c = '?' || c = '_' || c.toNat = 39 ||
  (97 ≤ c.toNat && c.toNat ≤ 122) ||
  (65 ≤ c.toNat && c.toNat ≤ 90) ||
  (48 ≤ c.toNat && c.toNat ≤ 57) ||
  0x100 ≤ c.toNat

/-- JavaScript whitespace (the class `\s`, which is also what
`String.prototype.trim` strips). -/
def isJsWhitespace (c : Char) : Bool :=
  c = ' ' || c = '\t' || c = '\n' || c = '\r' ||
  c.toNat = 0x0b || c.toNat = 0x0c || c.toNat = 0xa0 || c.toNat = 0x1680 ||
  (0x2000 ≤ c.toNat && c.toNat ≤ 0x200a) ||
  c.toNat = 0x2028 || c.toNat = 0x2029 || c.toNat = 0x202f ||
  c.toNat = 0x205f || c.toNat = 0x3000 || c.toNat = 0xfeff

/-- Splits the source at `\r?\n`, as the line regexp
`/(.*)((?:\r?\n)|$)/gu` does; a trailing newline yields a final empty raw
line, and the empty source yields one empty raw line. -/
def splitLines : List Char → List (List Char)
  | [] => [[]]
  | '\r' :: '\n' :: rest => [] :: splitLines rest
  | '\n' :: rest => [] :: splitLines rest
  | c :: rest =>
    match splitLines rest with
    | l :: ls => (c :: l) :: ls
    | [] => [[c]]

/-- The leading-whitespace measure of a raw line: a tab counts 8, any other
whitespace counts 1 (`iterateLine`). -/
def spaceCount (raw : List Char) : Nat :=
  (raw.takeWhile isJsWhitespace).foldl (fun a c => a + if c = '\t' then 8 else 1) 0

/-- `raw.trim()`: strips leading and trailing JavaScript whitespace. -/
def trimChars (raw : List Char) : List Char :=
  ((raw.dropWhile isJsWhitespace).reverse.dropWhile isJsWhitespace).reverse

/-- The per-line scanner state of `parseToTokens`.  The in-progress
identifier / literal states carry their accumulated codepoints, which the
TypeScript recovers as `text.slice(startRow, row)`; the slice is always
taken at codepoint boundaries, so carrying the codepoints is equivalent. -/
inductive ScanState where
  | none
  | identifier (startRow : Nat) (chars : List Char)
  | literal (startRow : Nat) (chars : List Char)
  | minus (startRow : Nat)
  | angleOrExclamation (startRow : Nat) (c : Char)
  | slash (startRow : Nat)
deriving DecidableEq, Repr

/-- Keyword recognition on a completed identifier run. -/
def wordToken (w : String) : Token :=
  if w = "memory" then .memoryToken
  else if w = "if" then .ifToken
  else if w = "while" then .whileToken
  else if w = "def" then .defToken
  else if w = "const" then .constToken
  else .identifierToken w

/-- Result of running the scanner's `switch (state)` on one codepoint. -/
inductive StatePhase where
  | consume (st : ScanState) (newToks : List RToken)
  | openComment
  | flushed (newToks : List RToken)
  | failed (e : PErr)
deriving Repr

/-- The `switch (state)` of `parseToTokens` on codepoint `c` (the non-EOL
case).  `consume` means `continue loop`; `flushed` means the state was
reset to `null` and control falls through to the fresh-codepoint dispatch;
`openComment` sets `multiLineCommentCount = 1`. -/
def stateStep (col : Nat) (state : ScanState) (c : Char) : StatePhase :=
  match state with
  | .none => .flushed []
  | .identifier s chars =>
      if isIdentifierCodePoint c then .consume (.identifier s (chars ++ [c])) []
      else .flushed [⟨wordToken (String.mk chars), s + 1⟩]
  | .literal s chars =>
      if isNumberCodePoint c then .consume (.literal s (chars ++ [c])) []
      else .flushed [⟨.numericLiteralToken (String.mk chars), s + 1⟩]
  | .minus s =>
      if c = '>' then .consume .none [⟨.assignmentToken, s + 1⟩]
      else .flushed [⟨.operatorToken "-", s + 1⟩]
  | .angleOrExclamation s a =>
      if c = '=' then .consume .none [⟨.operatorToken (String.mk [a, '=']), s + 1⟩]
      else if a = '!' then
        .failed (.parseError (msg2 (col + 1) (s + 1) "There should be only '=' after the '!'"))
      else .flushed [⟨.operatorToken (String.mk [a]), s + 1⟩]
  | .slash s =>
      if c = '*' then .openComment
      else .flushed [⟨.operatorToken "/", s + 1⟩]

/-- The `switch (state)` at the trailing `EOL` sentinel: every state
flushes (EOL is not an identifier codepoint, not a digit, and not `>`,
`=` or `*`), and the subsequent fresh dispatch of `EOL` matches nothing. -/
def stateFlushEOL (col : Nat) (state : ScanState) : Except PErr (List RToken) :=
  match state with
  | .none => .ok []
  | .identifier s chars => .ok [⟨wordToken (String.mk chars), s + 1⟩]
  | .literal s chars => .ok [⟨.numericLiteralToken (String.mk chars), s + 1⟩]
  | .minus s => .ok [⟨.operatorToken "-", s + 1⟩]
  | .angleOrExclamation s a =>
      if a = '!' then
        .error (.parseError (msg2 (col + 1) (s + 1) "There should be only '=' after the '!'"))
      else .ok [⟨.operatorToken (String.mk [a]), s + 1⟩]
  | .slash s => .ok [⟨.operatorToken "/", s + 1⟩]

/-- The fresh-codepoint dispatch (reached with `state = null`): returns the
new state, the tokens pushed, and whether the line was cut by a `#`
comment (`break loop`). -/
def freshDispatch (pos : Nat) (c : Char) : ScanState × List RToken × Bool :=
  match c with
  | '#' => (.none, [], true)
  | '-' => (.minus pos, [], false)
  | '<' => (.angleOrExclamation pos '<', [], false)
  | '>' => (.angleOrExclamation pos '>', [], false)
  | '!' => (.angleOrExclamation pos '!', [], false)
  | '/' => (.slash pos, [], false)
  | '+' => (.none, [⟨.operatorToken (String.mk ['+']), pos + 1⟩], false)
  | '=' => (.none, [⟨.operatorToken (String.mk ['=']), pos + 1⟩], false)
  | '*' => (.none, [⟨.operatorToken (String.mk ['*']), pos + 1⟩], false)
  | ',' => (.none, [⟨.separatorToken, pos + 1⟩], false)
  | '(' => (.none, [⟨.parentheseStartToken, pos + 1⟩], false)
  | ')' => (.none, [⟨.parentheseEndToken, pos + 1⟩], false)
  | '[' => (.none, [⟨.bracketStartToken, pos + 1⟩], false)
  | ']' => (.none, [⟨.bracketEndToken, pos + 1⟩], false)
  | _ =>
    if isNumberCodePoint c then (.literal pos [c], [], false)
    else if isIdentifierCodePoint c then (.identifier pos [c], [], false)
    else (.none, [], false)

/-- The per-codepoint loop of `parseToTokens` over one line's trimmed text.
`pos` is the current UTF-16-unit offset (`row`), `depth` the running
`multiLineCommentCount`, `prev` the previous codepoint of the line (used
by the in-comment two-unit window `text.slice(row - 1, row + 1)`, which
matches `/*` or `*/` exactly when the previous and current codepoints are
those two characters).  Returns the tokens of the line and the comment
depth after the line. -/
def scanAux (col : Nat) : List Char → Nat → Nat → ScanState → Option Char → Except PErr (List RToken × Nat)
  | [], _, depth, state, _ =>
      if 0 < depth then .ok ([], depth)
      else do
        let ts ← stateFlushEOL col state
        .ok (ts, depth)
  | c :: rest, pos, depth, state, prev =>
      if 0 < depth then
        let depth' :=
          if prev = some '/' ∧ c = '*' then depth + 1
          else if prev = some '*' ∧ c = '/' then depth - 1
          else depth
        scanAux col rest (pos + charWidth c) depth' state (some c)
      else
        match stateStep col state c with
        | .failed e => .error e
        | .consume st' ts => do
            let (ts', d') ← scanAux col rest (pos + charWidth c) depth st' (some c)
            .ok (ts ++ ts', d')
        | .openComment => scanAux col rest (pos + charWidth c) 1 .none (some c)
        | .flushed ts =>
            match freshDispatch pos c with
            | (st', ts2, brk) =>
              if brk then .ok (ts ++ ts2, depth)
              else do
                let (ts', d') ← scanAux col rest (pos + charWidth c) depth st' (some c)
                .ok (ts ++ ts2 ++ ts', d')

/-- One line's indent-stack update (`indents.indexOf(space)` then truncate,
push, or raise `"<column>: Invalid indent space"`).  `col` is 0-based. -/
def indentStep (indents : List Nat) (space : Nat) (col : Nat) : Except PErr (List Nat) :=
  match List.findIdx? (fun v => v = space) indents with
  | some indentIndex => .ok (indents.take (indentIndex + 1))
  | none =>
      if space < indents.getLastD 0 then
        .error (.parseError (msg1 (col + 1) "Invalid indent space"))
      else .ok (indents ++ [space])

/-- The per-line loop of `parseToTokens`: raw lines are consumed in order
(empty raw lines only advance the 0-based line counter `col`), each
non-empty line is scanned from its trimmed text, the indent stack is
updated, and lines whose token list is non-empty are emitted.  Returns the
emitted `LineToken`s and the final comment depth. -/
def tokeniseAux : List (List Char) → Nat → List Nat → Nat → Except PErr (List LineToken × Nat)
  | [], _, _, depth => .ok ([], depth)
  | raw :: rest, col, indents, depth =>
      if raw = [] then tokeniseAux rest (col + 1) indents depth
      else do
        let (tokens, depth') ← scanAux col (trimChars raw) 0 depth .none Option.none
        let indents' ← indentStep indents (spaceCount raw) col
        let (ts, d) ← tokeniseAux rest (col + 1) indents' depth'
        if tokens.isEmpty then .ok (ts, d)
        else .ok (⟨col + 1, indents'.length - 1, tokens⟩ :: ts, d)

/-- `parseToTokens` of `tokeniser.ts`: tokenises a whole source string.  If
a block comment is still open at end of input it reports
`"<column>: The multi-line comment is not closed"` with the column of the
last **emitted** `LineToken` — accessing `lineTokens[lineTokens.length-1]`
crashes with a `TypeError` when nothing was emitted. -/
def parseToTokens (source : String) : Except PErr (List LineToken) := do
  let (lineTokens, depth) ← tokeniseAux (splitLines source.data) 0 [0] 0
  if depth ≠ 0 then
    match lineTokens.getLast? with
    | some t => .error (.parseError (msg1 t.column "The multi-line comment is not closed"))
    | Option.none => .error .typeError
  else .ok lineTokens

/-- `tokenise`, the exported name of `parseToTokens`. -/
def tokenise (source : String) : Except PErr (List LineToken) :=
  parseToTokens source

/-- The `Expression` AST of `parser.ts`.  `MemberExpression.target` and
`CallExpression.callee` are `Identifier` nodes in the source; here they
carry the identifier's name directly. -/
inductive Expr where
  | unary (operator : String) (argument : Expr)
  | binary (operator : String) (left : Expr) (right : Expr)
  | member (target : String) (property : Expr)
  | call (callee : String) (arguments : List Expr)
  | ident (name : String)
  | num (value : Int)

/-- The 3-valued `ExpressionState` (`null` is modelled as `Option.none`). -/
inductive ExprState where
  | unaryS (operator : String)
  | binaryS (left : Expr)

/-- The forward scan locating the bracket that closes the region starting
inside `toks`: `++count` on `[`, `--count` on `]`, stop when the count
returns to zero.  `idx` is the index (in the enclosing token list) of the
first element of `toks`; the returned index counts from the same origin. -/
def bracketEndScan : List RToken → Int → Nat → Option Nat
  | [], _, _ => Option.none
  | t :: rest, count, idx =>
    match t.tok with
    | .bracketStartToken => bracketEndScan rest (count + 1) (idx + 1)
    | .bracketEndToken =>
        if count - 1 = 0 then some idx
        else bracketEndScan rest (count - 1) (idx + 1)
    | _ => bracketEndScan rest count (idx + 1)

/-- The forward scan locating the parenthesis that closes the region
starting inside `toks` (only parentheses are counted). -/
def parenEndScan : List RToken → Int → Nat → Option Nat
  | [], _, _ => Option.none
  | t :: rest, count, idx =>
    match t.tok with
    | .parentheseStartToken => parenEndScan rest (count + 1) (idx + 1)
    | .parentheseEndToken =>
        if count - 1 = 0 then some idx
        else parenEndScan rest (count - 1) (idx + 1)
    | _ => parenEndScan rest count (idx + 1)

/-- The balanced-parenthesis argument scan shared by the call-argument and
`def`-parameter forms.  The scan walks the token list that starts just
after the opening context (`tokens.slice(k)` in the source, `j` being the
slice-relative index), maintaining a parenthesis count and the
slice-relative `start` of the current slot; commas at count 1 delimit
slots.  Slots are recorded as `(a, b)` pairs meaning
`tokens.slice(a, b)` of the original token list (`a = start + k + 1`,
`b = j + k`), exactly the slices the source pushes; the second component
of the result is the original index of the closing parenthesis. -/
def parenRegionsAux : List RToken → Nat → Int → Nat → Nat → List (Nat × Nat) → Option (List (Nat × Nat) × Nat)
  | [], _, _, _, _, _ => Option.none
  | t :: rest, j, count, start, k, acc =>
    match t.tok with
    | .parentheseStartToken => parenRegionsAux rest (j + 1) (count + 1) start k acc
    | .parentheseEndToken =>
        if count - 1 = 0 then
          some ((if start + 1 = j then acc else acc ++ [(start + k + 1, j + k)]), j + k)
        else parenRegionsAux rest (j + 1) (count - 1) start k acc
    | .separatorToken =>
        if count = 1 then parenRegionsAux rest (j + 1) count j k (acc ++ [(start + k + 1, j + k)])
        else parenRegionsAux rest (j + 1) count start k acc
    | _ => parenRegionsAux rest (j + 1) count start k acc

/-- Applies a pending unary state to a freshly built operand. -/
def applyUnary (uop : Option String) (e : Expr) : Expr :=
  match uop with
  | some op => .unary op e
  | Option.none => e

/-- The post-build left rotation of `parseExpression`: while the root's
right child is itself `Binary`, rotate it up
(`(l, op, (ll, op2, lr)) → ((l, op, ll), op2, lr)`). -/
def leftRotate (operator : String) (left : Expr) : Expr → Expr
  | .binary op2 ll lr => leftRotate op2 (.binary operator left ll) lr
  | r => .binary operator left r

/-- Is the token one of the five kinds that must not appear inside an
expression (`If`, `While`, `Def`, `Const`, `Assignment`)? -/
def isForbiddenInExpr : Token → Bool
  | .ifToken => true
  | .whileToken => true
  | .defToken => true
  | .constToken => true
  | .assignmentToken => true
  | _ => false

/-- `Number.parseInt(value, 10)` on a run of decimal digits. -/
def digitsToNat (s : String) : Nat :=
  s.data.foldl (fun a c => a * 10 + (c.toNat - 48)) 0

/-- `parseExpression` of `parser.ts`, with an explicit recursion-depth
budget `fuel` as termination measure.  Every recursive call of the source
is on a strictly shorter token list, so any `fuel` exceeding
`tokens.length` makes the fuel-exhaustion branch unreachable; the wrapper
`parseExpression` below supplies `tokens.length + 1`, and each inner call
passes `fuel - 1`, which again exceeds the callee's list length.  The
out-of-range test `value !== (value | 0)` is the signed 32-bit range test
(every accepted value is below 2^53, where JavaScript numbers are exact
integers). -/
def parseExprF (col : Nat) : Nat → List RToken → Option ExprState → Except PErr Expr
  | _, [], _ => .error (.parseError (msg1 col "Syntax Error"))
  | 0, _ :: _, _ => .error .typeError
  | fuel + 1, token :: rest, state =>
    if isForbiddenInExpr token.tok then
      .error (.parseError (msg2 col token.row "It contains words that must not be included in the expression"))
    else
      match state with
      | some (.binaryS left) =>
        match token.tok with
        | .operatorToken op => do
            let right ← parseExprF col fuel rest Option.none
            .ok (leftRotate op left right)
        | _ => .error (.parseError (msg2 col token.row "Syntax Error"))
      | _ =>
        let uop : Option String :=
          match state with
          | some (.unaryS o) => some o
          | _ => Option.none
        match token.tok with
        | .bracketStartToken => .error (.parseError (msg2 col token.row "Syntax Error"))
        | .bracketEndToken => .error (.parseError (msg2 col token.row "Syntax Error"))
        | .parentheseEndToken => .error (.parseError (msg2 col token.row "Syntax Error"))
        | .separatorToken => .error (.parseError (msg2 col token.row "Syntax Error"))
        | .identifierToken name =>
          let identifier := Expr.ident name
          let tokens := token :: rest
          match rest with
          | [] => .ok (applyUnary uop identifier)
          | t1 :: _ =>
            match t1.tok with
            | .bracketStartToken =>
              match bracketEndScan rest 0 1 with
              | Option.none => .error (.parseError (msg2 col t1.row "The bracket is not closed"))
              | some bEnd =>
                let propertyTokens := (tokens.take bEnd).drop 2
                if propertyTokens = [] then
                  .error (.parseError (msg2 col t1.row "The contents of the bracket are empty"))
                else do
                  let property ← parseExprF col fuel propertyTokens Option.none
                  let expression := applyUnary uop (.member name property)
                  let remains := tokens.drop (bEnd + 1)
                  if remains = [] then .ok expression
                  else parseExprF col fuel remains (some (.binaryS expression))
            | .parentheseStartToken =>
              match parenRegionsAux rest 0 0 0 1 [] with
              | Option.none => .error (.parseError (msg2 col t1.row "The parenthese is not closed"))
              | some (regions, pEnd) => do
                let args ← regions.mapM (fun r => parseExprF col fuel ((tokens.take r.2).drop r.1) Option.none)
                let expression := applyUnary uop (.call name args)
                let remains := tokens.drop (pEnd + 1)
                if remains = [] then .ok expression
                else parseExprF col fuel remains (some (.binaryS expression))
            | _ => parseExprF col fuel rest (some (.binaryS (applyUnary uop identifier)))
        | .memoryToken =>
          let tokens := token :: rest
          match rest with
          | [] => .error (.parseError (msg2 col (token.row + 6) "It must be a bracket after `memory` keyword"))
          | t1 :: _ =>
            if t1.tok ≠ Token.bracketStartToken then
              .error (.parseError (msg2 col t1.row "It must be a bracket after `memory` keyword"))
            else
              match bracketEndScan rest 0 1 with
              | Option.none => .error (.parseError (msg2 col t1.row "The bracket is not closed"))
              | some bEnd =>
                let propertyTokens := (tokens.take bEnd).drop 2
                if propertyTokens = [] then
                  .error (.parseError (msg2 col t1.row "The contents of the bracket are empty"))
                else do
                  let property ← parseExprF col fuel propertyTokens Option.none
                  let expression := applyUnary uop (.member "memory" property)
                  let remains := tokens.drop (bEnd + 1)
                  if remains = [] then .ok expression
                  else parseExprF col fuel remains (some (.binaryS expression))
        | .numericLiteralToken v =>
          let raw : Int := Int.ofNat (digitsToNat v)
          let value : Int := if uop = some "-" then -raw else raw
          if value < -2147483648 ∨ 2147483647 < value then
            .error (.parseError (msg2 col token.row "Out of range integer value"))
          else
            let literal := Expr.num value
            match rest with
            | [] => .ok literal
            | _ :: _ => parseExprF col fuel rest (some (.binaryS literal))
        | .operatorToken op =>
          if op = "+" ∨ op = "-" then parseExprF col fuel rest (some (.unaryS op))
          else .error (.parseError (msg2 col token.row "Invalid operator"))
        | .parentheseStartToken =>
          let tokens := token :: rest
          match parenEndScan tokens 0 0 with
          | Option.none => .error (.parseError (msg2 col token.row "The parenthese is not closed"))
          | some pEnd =>
            let parentheseTokens := (tokens.take pEnd).drop 1
            if parentheseTokens = [] then
              .error (.parseError (msg2 col token.row "The parenthese of the bracket are empty"))
            else do
              let inner ← parseExprF col fuel parentheseTokens Option.none
              let expression := applyUnary uop inner
              if pEnd = tokens.length - 1 then .ok expression
              else parseExprF col fuel (tokens.drop (pEnd + 1)) (some (.binaryS expression))
        | _ => .error (.parseError (msg2 col token.row "It contains words that must not be included in the expression"))

/-- `parseExpression` of `parser.ts` (the fuel `tokens.length + 1` strictly
dominates the recursion depth, see `parseExprF`). -/
def parseExpression (col : Nat) (tokens : List RToken) (state : Option ExprState) : Except PErr Expr :=
  parseExprF col (tokens.length + 1) tokens state

/-- The statement AST of `parser.ts` (root-only and nested statement forms
merged into one type; `ConstantStatement.left`, `FunctionDeclaration.id`
and its `params` are `Identifier` nodes placed by unchecked casts in the
source, so they are carried as `Expr` here). -/
inductive Stmt where
  | assignment (left : Expr) (right : Expr)
  | exprStmt (expression : Expr)
  | ifStmt (test : Expr) (body : List Stmt)
  | whileStmt (test : Expr) (body : List Stmt)
  | constant (left : Expr) (right : Expr)
  | funcDecl (id : Expr) (params : List Expr) (body : List Stmt)

/-- `Program` of `parser.ts`. -/
structure Program where
  body : List Stmt

/-- Is the expression a `CallExpression`? -/
def isCallExpr : Expr → Bool
  | .call _ _ => true
  | _ => false

/-- Is the expression an `Identifier`? -/
def isIdentExpr : Expr → Bool
  | .ident _ => true
  | _ => false

/-- Is the expression a `MemberExpression` or an `Identifier` (the shapes
allowed on the left of an assignment)? -/
def isAssignable : Expr → Bool
  | .member _ _ => true
  | .ident _ => true
  | _ => false

/-- The statement that opened a still-open block body. -/
inductive Opener where
  | ifO (test : Expr)
  | whileO (test : Expr)
  | defO (id : Expr) (params : List Expr)

/-- An open block: its opener and the statements collected so far.  In the
source the body array is pushed both into the opener statement and onto
the `statements` stack and filled by mutation; here the statement is
materialised when the block closes (or at end of input), which yields the
same tree because nothing can be appended to a parent frame while a child
frame is open. -/
structure Frame where
  opener : Opener
  stmts : List Stmt

/-- Builds the opener's statement from its completed body. -/
def mkOpenerStmt : Opener → List Stmt → Stmt
  | .ifO t, body => .ifStmt t body
  | .whileO t, body => .whileStmt t body
  | .defO id params, body => .funcDecl id params body

/-- The driver state of `parse`: the program body (`statements[0]`), the
open frames (innermost first; the `statements` stack is `root` followed by
the frames in reverse), and the `minIndent` / `maxIndent` / last-line
bookkeeping. -/
structure PState where
  root : List Stmt
  frames : List Frame
  minIndent : Option Nat
  maxIndent : Option Nat
  lastColumn : Option Nat

/-- `statements.length = target` for `target ≤ statements.length`: closes
frames innermost-first until at most `target - 1` frames remain, folding
each closed body into its opener statement and appending that statement to
the parent frame (or to the program body).  When `target` exceeds the
stack length the source extends the array with holes; the caller detects
that case separately (`stepLine`'s `holey`). -/
def closeN : Nat → List Stmt → List Frame → List Stmt × List Frame
  | 0, root, frames => (root, frames)
  | _ + 1, root, [] => (root, [])
  | n + 1, root, f :: rest =>
      let stmt := mkOpenerStmt f.opener f.stmts
      match rest with
      | g :: rest' => closeN n root ({ g with stmts := g.stmts ++ [stmt] } :: rest')
      | [] => closeN n (root ++ [stmt]) []

/-- `statements.length = target` for `target ≥ 1`: the stack shrinks by
exactly `statements.length - target` closed frames (and never below the
program body). -/
def closeTo (target : Nat) (root : List Stmt) (frames : List Frame) : List Stmt × List Frame :=
  closeN (frames.length + 1 - target) root frames

/-- `statements[statements.length - 1].push(stmt)`. -/
def pushTop (root : List Stmt) (frames : List Frame) (stmt : Stmt) : List Stmt × List Frame :=
  match frames with
  | [] => (root ++ [stmt], [])
  | f :: rest => (root, { f with stmts := f.stmts ++ [stmt] } :: rest)

/-- One iteration of `parse`'s per-line loop: the `minIndent`/`maxIndent`
check, the truncation of the statement stack to `indent + 1`, and the
dispatch on the line's first token.  When `indent + 1` exceeds the stack
length the source's length assignment pads the array with holes and the
eventual `statements[statements.length - 1].push` crashes; `holey` marks
that situation and the pushes turn it into `PErr.typeError` (errors raised
before the push still fire first, as in the source). -/
def stepLine (st : PState) (lt : LineToken) : Except PErr PState :=
  let column := lt.column
  let indent := lt.indent
  let tokens := lt.tokens
  let minBad : Bool :=
    match st.minIndent with
    | some m => decide (indent < m)
    | Option.none => false
  let maxBad : Bool :=
    match st.maxIndent with
    | some m => decide (m < indent)
    | Option.none => false
  if minBad || maxBad then .error (.parseError (msg1 column "Invalid indent space"))
  else
    let rf := closeTo (indent + 1) st.root st.frames
    let root := rf.1
    let frames := rf.2
    let holey : Bool := decide (frames.length < indent)
    match tokens with
    | [] => .error .typeError
    | token :: _ =>
      match token.tok with
      | .numericLiteralToken _ => .error (.parseError (msg1 column "Syntax Error"))
      | .operatorToken _ => .error (.parseError (msg1 column "Syntax Error"))
      | .assignmentToken => .error (.parseError (msg1 column "Syntax Error"))
      | .parentheseStartToken => .error (.parseError (msg1 column "Syntax Error"))
      | .parentheseEndToken => .error (.parseError (msg1 column "Syntax Error"))
      | .bracketStartToken => .error (.parseError (msg1 column "Syntax Error"))
      | .bracketEndToken => .error (.parseError (msg1 column "Syntax Error"))
      | .separatorToken => .error (.parseError (msg1 column "Syntax Error"))
      | .identifierToken _ | .memoryToken =>
        (match List.findIdx? (fun t => t.tok = Token.assignmentToken) tokens with
        | some index =>
          let leftTokens := tokens.take index
          let arow := ((tokens.drop index).headD ⟨.assignmentToken, 0⟩).row
          if leftTokens = [] then
            .error (.parseError (msg2 column arow "The left side of the assignment operator is empty"))
          else do
            let left ← parseExpression column leftTokens Option.none
            if isAssignable left = false then
              .error (.parseError (msg2 column ((leftTokens.headD ⟨.assignmentToken, 0⟩).row) "The left side of the assignment operator is not assignable"))
            else
              let rightTokens := tokens.drop (index + 1)
              if rightTokens = [] then
                .error (.parseError (msg2 column arow "The right side of the assignment operator is empty"))
              else do
                let right ← parseExpression column rightTokens Option.none
                if holey then .error .typeError
                else
                  let pt := pushTop root frames (.assignment left right)
                  .ok ⟨pt.1, pt.2, Option.none, some indent, some column⟩
        | Option.none => do
          let expression ← parseExpression column tokens Option.none
          if isCallExpr expression = false then
            .error (.parseError (msg1 column "This expression has no effect"))
          else if holey then .error .typeError
          else
            let pt := pushTop root frames (.exprStmt expression)
            .ok ⟨pt.1, pt.2, Option.none, some indent, some column⟩)
      | .ifToken =>
        let testTokens := tokens.drop 1
        if testTokens = [] then
          .error (.parseError (msg2 column (token.row + 2) "There is no condition in the `if` statement"))
        else do
          let test ← parseExpression column testTokens Option.none
          if holey then .error .typeError
          else .ok ⟨root, ⟨.ifO test, []⟩ :: frames, some (indent + 1), Option.none, some column⟩
      | .whileToken =>
        let testTokens := tokens.drop 1
        if testTokens = [] then
          .error (.parseError (msg2 column (token.row + 2) "There is no condition in the `while` statement"))
        else do
          let test ← parseExpression column testTokens Option.none
          if holey then .error .typeError
          else .ok ⟨root, ⟨.whileO test, []⟩ :: frames, some (indent + 1), Option.none, some column⟩
      | .constToken =>
        if indent ≠ 0 then
          .error (.parseError (msg2 column token.row "`const` keyword must be in the root scope (no indent)"))
        else
          match tokens.drop 1 with
          | [] => .error .typeError
          | t1 :: rest2 =>
            match t1.tok with
            | .identifierToken _ => do
              let identifier ← parseExpression column [t1] Option.none
              match rest2 with
              | [] => .error .typeError
              | t2 :: rest3 =>
                if t2.tok ≠ Token.assignmentToken then
                  .error (.parseError (msg2 column t2.row "Invalid `const` statement"))
                else if rest3 = [] then
                  .error (.parseError (msg2 column t2.row "The right side of the assignment operator is empty"))
                else do
                  let right ← parseExpression column rest3 Option.none
                  .ok ⟨root ++ [.constant identifier right], frames, Option.none, some indent, some column⟩
            | _ => .error (.parseError (msg2 column t1.row "`const` keyword must be followed by an identifier"))
      | .defToken =>
        if indent ≠ 0 then
          .error (.parseError (msg2 column token.row "`def` keyword must be in the root scope (no indent)"))
        else
          match tokens.drop 1 with
          | [] => .error .typeError
          | t1 :: rest2 =>
            match t1.tok with
            | .identifierToken _ => do
              let identifier ← parseExpression column [t1] Option.none
              match rest2 with
              | [] => .error .typeError
              | t2 :: _ =>
                if t2.tok ≠ Token.parentheseStartToken then
                  .error (.parseError (msg2 column t2.row "Invalid `def` statement"))
                else
                  match parenRegionsAux (tokens.drop 2) 0 0 0 2 [] with
                  | Option.none => .error (.parseError (msg2 column t1.row "The parenthese is not closed"))
                  | some (regions, _) => do
                    let params ← regions.mapM (fun r => parseExpression column ((tokens.take r.2).drop r.1) Option.none)
                    if params.any (fun e => isIdentExpr e = false) then
                      .error (.parseError (msg1 column "Invalid parameters"))
                    else
                      .ok ⟨root, ⟨.defO identifier params, []⟩ :: frames, some (indent + 1), Option.none, some column⟩
            | _ => .error (.parseError (msg2 column t1.row "`def` keyword must be followed by an identifier"))

/-- The loop of `parse` over the incoming `LineToken`s. -/
def parseLines : List LineToken → PState → Except PErr PState
  | [], st => .ok st
  | l :: rest, st => do
      let st' ← stepLine st l
      parseLines rest st'

/-- `parse` of `parser.ts`: runs the per-line loop from the empty state,
raises the body-less-block error when `minIndent` is still set after the
last line, and otherwise returns the program (all still-open frames fold
into their parents, which reproduces the source's shared-array result). -/
def parse (lineTokens : List LineToken) : Except PErr Program := do
  let st ← parseLines lineTokens ⟨[], [], Option.none, Option.none, Option.none⟩
  if st.minIndent.isSome && st.lastColumn.isSome then
    .error (.parseError (msg1 (st.lastColumn.getD 0) "There is no body for the last `if` or `while` or `def` statement"))
  else
    .ok ⟨(closeTo 1 st.root st.frames).1⟩

/-- The public pipeline of `index.ts`: `parse(tokenise(source))`. -/
def compile (source : String) : Except PErr Program :=
  parseToTokens source >>= parse

/-- Does this expression node have a `BinaryExpression` right child while
being itself binary?  (The shape the left-associative normal form rules
out.) -/
def rightIsBinary : Expr → Bool
  | .binary _ _ (.binary _ _ _) => true
  | _ => false

/-- A tokenisation result with the token rows erased (columns, indents and
the tokens themselves kept). -/
def eraseRows (ts : List LineToken) : List (Nat × Nat × List Token) :=
  ts.map (fun t => (t.column, t.indent, t.tokens.map (fun rt => rt.tok)))

/-- C1 (code bug in the source): the expression `1 + 2 + 3 + 4` does NOT
parse to the fully left-associative `((1+2)+3)+4`.  The rotation loop only
re-examines the new root's right child, so the assignment's right side
comes out as `(1+(2+3))+4`, whose left child is a `BinaryExpression` whose
right child is again a `BinaryExpression` — the claimed normal form is
violated on this very program. -/
theorem claim1_rotation_bug :
    compile "x -> 1 + 2 + 3 + 4" =
      .ok ⟨[.assignment (.ident "x")
        (.binary "+" (.binary "+" (.num 1) (.binary "+" (.num 2) (.num 3))) (.num 4))]⟩ ∧
    rightIsBinary (.binary "+" (.num 1) (.binary "+" (.num 2) (.num 3))) = true ∧
    Expr.binary "+" (.binary "+" (.num 1) (.binary "+" (.num 2) (.num 3))) (.num 4) ≠
      Expr.binary "+" (.binary "+" (.binary "+" (.num 1) (.num 2)) (.num 3)) (.num 4) := by
  refine ⟨rfl, rfl, fun h => ?_⟩
  injection h with h1 h2 h3
  injection h2 with g1 g2 g3
  exact Expr.noConfusion g2

/-- C9 (code bug in the source): a line consisting of the bare `const`
keyword makes `parse` crash with a JavaScript `TypeError` — the error
message interpolates `identifierToken.row` although `tokens[1]` is
`undefined` — instead of raising the `ParseError` the claim describes. -/
theorem claim9_bare_const_crashes :
    compile "const" = .error .typeError ∧
    parse [⟨1, 0, [⟨.constToken, 1⟩]⟩] = .error .typeError := ⟨rfl, rfl⟩

instance {ε α : Type} [DecidableEq ε] [DecidableEq α] : DecidableEq (Except ε α) := fun a b =>
  match a, b with
  | .ok x, .ok y =>
      if h : x = y then isTrue (by rw [h]) else isFalse (fun hh => h (Except.ok.inj hh))
  | .error x, .error y =>
      if h : x = y then isTrue (by rw [h]) else isFalse (fun hh => h (Except.error.inj hh))
  | .ok _, .error _ => isFalse (fun hh => Except.noConfusion hh)
  | .error _, .ok _ => isFalse (fun hh => Except.noConfusion hh)

/-- C4 counterexample: the nested-block-comment source does NOT tokenise
to the same result as `x -> 1`: the token rows differ (19/21/24 against
1/3/6), and `LineToken`s carry the rows. -/
theorem claim4_counterexample :
    tokenise "/* a /* b */ c */ x -> 1" ≠ tokenise "x -> 1" := by decide

/-- C4 amended: the nested-block-comment source tokenises successfully
(the depth counter handles the nesting) and agrees with `x -> 1` on
columns, indents and the token sequence itself; only the recorded rows
differ, being offsets of the tokens inside the longer line. -/
theorem claim4_amended :
    tokenise "/* a /* b */ c */ x -> 1" =
      .ok [⟨1, 0, [⟨.identifierToken "x", 19⟩, ⟨.assignmentToken, 21⟩, ⟨.numericLiteralToken "1", 24⟩]⟩] ∧
    tokenise "x -> 1" =
      .ok [⟨1, 0, [⟨.identifierToken "x", 1⟩, ⟨.assignmentToken, 3⟩, ⟨.numericLiteralToken "1", 6⟩]⟩] ∧
    (tokenise "/* a /* b */ c */ x -> 1").map eraseRows = (tokenise "x -> 1").map eraseRows :=
  ⟨rfl, rfl, rfl⟩

/-- C5 counterexample: for `"x -> 1\n/*"` the block comment is still open
at end of input and the last line of the input is line 2, but the error
reports column 1 — the column of the last **emitted** `LineToken` (line 2
produced no tokens). -/
theorem claim5_counterexample :
    tokenise "x -> 1\n/*" = .error (.parseError (msg1 1 "The multi-line comment is not closed")) ∧
    (splitLines ("x -> 1\n/*").data).length = 2 ∧
    msg1 1 "The multi-line comment is not closed" ≠ msg1 2 "The multi-line comment is not closed" := by
  refine ⟨rfl, rfl, by decide⟩

/-- C2 counterexample: in `"x -> 1\n  \n    y -> 2"` the middle
whitespace-only line is omitted from the output yet pushes its space count
onto the indent stack, so the second emitted line gets indent 2 while the
maximum indent previously emitted is 0 — outside the claimed range
`[0, previous_max + 1] = [0, 1]`. -/
theorem claim2_counterexample :
    tokenise "x -> 1\n  \n    y -> 2" =
      .ok [⟨1, 0, [⟨.identifierToken "x", 1⟩, ⟨.assignmentToken, 3⟩, ⟨.numericLiteralToken "1", 6⟩]⟩,
           ⟨3, 2, [⟨.identifierToken "y", 1⟩, ⟨.assignmentToken, 3⟩, ⟨.numericLiteralToken "2", 6⟩]⟩] ∧
    ¬ (2 ≤ 0 + 1) := ⟨rfl, by decide⟩

/-- C3 counterexample: the line `" x"` has one unit of leading whitespace
and its identifier token begins at offset 1 of the source line, so the
claim predicts `row = 2`; the tokeniser trims the line before scanning and
records `row = 1`. -/
theorem claim3_counterexample :
    tokenise " x" = .ok [⟨1, 1, [⟨.identifierToken "x", 1⟩]⟩] ∧ (1 : Nat) ≠ 1 + 1 :=
  ⟨rfl, by decide⟩

/-- The value the expression parser assigns to a numeric literal with digit
run `d` under pending state `uop`: the base-10 integer, negated during
parsing when the state is unary minus. -/
def literalValue (uop : Option String) (d : String) : Int :=
  if uop = some "-" then -(Int.ofNat (digitsToNat d)) else Int.ofNat (digitsToNat d)

/-- Unfolding of `parseExprF` at a numeric-literal head in operand
position (definitional). -/
theorem parseExprF_numlit (col fuel row : Nat) (d : String) (rest : List RToken)
    (uop : Option String) :
    parseExprF col (fuel + 1) (⟨.numericLiteralToken d, row⟩ :: rest) (uop.map ExprState.unaryS) =
      (if literalValue uop d < -2147483648 ∨ 2147483647 < literalValue uop d then
        .error (.parseError (msg2 col row "Out of range integer value"))
      else
        match rest with
        | [] => .ok (.num (literalValue uop d))
        | _ :: _ => parseExprF col fuel rest (some (.binaryS (.num (literalValue uop d))))) := by
  cases uop <;> rfl

/-- C6: a numeric literal reached by the expression parser in operand
position parses to its signed base-10 value; it is accepted exactly when
that value fits a signed 32-bit integer (`-2147483648` included, third
conjunct), and rejected with `"<col> <row>: Out of range integer value"`
otherwise. -/
theorem claim6_numeric_literal (col row : Nat) (d : String) (rest : List RToken)
    (uop : Option String) :
    ((-2147483648 ≤ literalValue uop d ∧ literalValue uop d ≤ 2147483647) →
      parseExpression col (⟨.numericLiteralToken d, row⟩ :: rest) (uop.map ExprState.unaryS) =
        (match rest with
         | [] => .ok (.num (literalValue uop d))
         | _ :: _ => parseExpression col rest (some (.binaryS (.num (literalValue uop d)))))) ∧
    ((literalValue uop d < -2147483648 ∨ 2147483647 < literalValue uop d) →
      parseExpression col (⟨.numericLiteralToken d, row⟩ :: rest) (uop.map ExprState.unaryS) =
        .error (.parseError (msg2 col row "Out of range integer value"))) ∧
    parseExpression col [⟨.numericLiteralToken "2147483648", row⟩] (some (.unaryS "-")) =
      .ok (.num (-2147483648)) := by
  refine ⟨fun h => ?_, fun h => ?_, rfl⟩ <;>
    rw [show parseExpression col (⟨.numericLiteralToken d, row⟩ :: rest) (uop.map ExprState.unaryS) =
          parseExprF col ((⟨.numericLiteralToken d, row⟩ :: rest).length - 1 + 1 + 1)
            (⟨.numericLiteralToken d, row⟩ :: rest) (uop.map ExprState.unaryS) from rfl,
        parseExprF_numlit]
  · rw [if_neg (by omega)]
    cases rest <;> rfl
  · rw [if_pos h]

/-- Witness for C6: `-7` parses in-range under unary minus, `9999999999`
is rejected as out of range. -/
theorem claim6_numeric_literal_witness :
    parseExpression 1 [⟨.numericLiteralToken "7", 1⟩] (some (.unaryS "-")) = .ok (.num (-7)) ∧
    parseExpression 1 [⟨.numericLiteralToken "9999999999", 1⟩] Option.none =
      .error (.parseError (msg2 1 1 "Out of range integer value")) :=
  ⟨(claim6_numeric_literal 1 1 "7" [] (some "-")).1 (by decide),
   (claim6_numeric_literal 1 1 "9999999999" [] Option.none).2.1 (by decide)⟩

/-- C10: a prefix unary `+`/`-` directly on a numeric literal yields a
plain `NumericLiteral` (the value negated for `-`), never a
`UnaryExpression`; the same pending unary state on an identifier, a
`memory[...]` member, a call, or a parenthesised expression wraps the
operand in a `UnaryExpression`. -/
theorem claim10_unary_shapes (col row : Nat) (d name : String) (op : String)
    (_hop : op = "+" ∨ op = "-")
    (hlo : -2147483648 ≤ literalValue (some op) d)
    (hhi : literalValue (some op) d ≤ 2147483647) :
    parseExpression col [⟨.numericLiteralToken d, row⟩] (some (.unaryS op)) =
      .ok (.num (literalValue (some op) d)) ∧
    (∀ e, parseExpression col [⟨.numericLiteralToken d, row⟩] (some (.unaryS op)) ≠
      .ok (.unary op e)) ∧
    parseExpression col [⟨.identifierToken name, row⟩] (some (.unaryS op)) =
      .ok (.unary op (.ident name)) ∧
    parseExpression col [⟨.memoryToken, row⟩, ⟨.bracketStartToken, row + 1⟩,
        ⟨.identifierToken name, row + 2⟩, ⟨.bracketEndToken, row + 3⟩] (some (.unaryS op)) =
      .ok (.unary op (.member "memory" (.ident name))) ∧
    parseExpression col [⟨.identifierToken name, row⟩, ⟨.parentheseStartToken, row + 1⟩,
        ⟨.parentheseEndToken, row + 2⟩] (some (.unaryS op)) =
      .ok (.unary op (.call name [])) ∧
    parseExpression col [⟨.parentheseStartToken, row⟩, ⟨.identifierToken name, row + 1⟩,
        ⟨.parentheseEndToken, row + 2⟩] (some (.unaryS op)) =
      .ok (.unary op (.ident name)) := by
  have hnum : parseExpression col [⟨.numericLiteralToken d, row⟩] (some (.unaryS op)) =
      .ok (.num (literalValue (some op) d)) := by
    have h := (claim6_numeric_literal col row d [] (some op)).1 ⟨hlo, hhi⟩
    exact h
  refine ⟨hnum, fun e he => ?_, rfl, rfl, rfl, rfl⟩
  rw [hnum] at he
  injection he with he2
  exact Expr.noConfusion he2

/-- Witness for C10 at `op = "-"`, `d = "5"`. -/
theorem claim10_unary_shapes_witness :
    parseExpression 1 [⟨.numericLiteralToken "5", 1⟩] (some (.unaryS "-")) =
      .ok (.num (literalValue (some "-") "5")) ∧
    parseExpression 1 [⟨.identifierToken "y", 1⟩] (some (.unaryS "-")) =
      .ok (.unary "-" (.ident "y")) :=
  ⟨(claim10_unary_shapes 1 1 "5" "y" "-" (Or.inr rfl) (by decide) (by decide)).1,
   (claim10_unary_shapes 1 1 "5" "y" "-" (Or.inr rfl) (by decide) (by decide)).2.2.1⟩

mutual

/-- `p` holds at this statement node and, hereditarily, at every statement
inside its block bodies. -/
def stmtAllB (p : Stmt → Bool) : Stmt → Bool
  | .assignment l r => p (.assignment l r)
  | .exprStmt e => p (.exprStmt e)
  | .ifStmt t b => p (.ifStmt t b) && stmtsAllB p b
  | .whileStmt t b => p (.whileStmt t b) && stmtsAllB p b
  | .constant l r => p (.constant l r)
  | .funcDecl i ps b => p (.funcDecl i ps b) && stmtsAllB p b

/-- `stmtAllB p` holds for every statement of the list. -/
def stmtsAllB (p : Stmt → Bool) : List Stmt → Bool
  | [] => true
  | s :: rest => stmtAllB p s && stmtsAllB p rest

end

/-- The node-local predicate of C7: block statements have non-empty
bodies. -/
def nonemptyBodies : Stmt → Bool
  | .ifStmt _ b => !b.isEmpty
  | .whileStmt _ b => !b.isEmpty
  | .funcDecl _ _ b => !b.isEmpty
  | _ => true

/-- The node-local predicate of C8: an `ExpressionStatement` holds a
`CallExpression`. -/
def exprStmtIsCall : Stmt → Bool
  | .exprStmt e => isCallExpr e
  | _ => true

theorem stmtsAllB_append (p : Stmt → Bool) (a b : List Stmt) :
    stmtsAllB p (a ++ b) = (stmtsAllB p a && stmtsAllB p b) := by
  induction a with
  | nil => simp [stmtsAllB]
  | cons s rest ih => simp [stmtsAllB, ih, Bool.and_assoc]

/-- All frame bodies satisfy `stmtsAllB p`. -/
def FramesOk (p : Stmt → Bool) (frames : List Frame) : Prop :=
  ∀ f ∈ frames, stmtsAllB p f.stmts = true

/-- The innermost open frame (if any) already has a statement. -/
def TopNE : List Frame → Prop
  | [] => True
  | f :: _ => f.stmts ≠ []

theorem closeN_length (n : Nat) (root : List Stmt) (frames : List Frame) :
    (closeN n root frames).2.length = frames.length - n := by
  induction n generalizing root frames with
  | zero => simp [closeN]
  | succ n ih =>
    match frames with
    | [] => simp [closeN]
    | f :: rest =>
      match rest with
      | g :: rest' =>
        show (closeN n root _).2.length = _
        rw [ih]
        simp
      | [] =>
        show (closeN n _ []).2.length = _
        rw [ih]
        simp [List.length_nil]

theorem closeN_zero (root : List Stmt) (frames : List Frame) :
    closeN 0 root frames = (root, frames) := rfl

/-- Closing frames preserves the hereditary predicate when the predicate
accepts every opener statement built from a body that satisfies it
(C8-style predicates). -/
theorem closeN_ok (p : Stmt → Bool)
    (hop : ∀ o b, stmtsAllB p b = true → stmtAllB p (mkOpenerStmt o b) = true)
    (n : Nat) (root : List Stmt) (frames : List Frame)
    (hr : stmtsAllB p root = true) (hf : FramesOk p frames) :
    stmtsAllB p (closeN n root frames).1 = true ∧ FramesOk p (closeN n root frames).2 := by
  induction n generalizing root frames with
  | zero => exact ⟨hr, hf⟩
  | succ n ih =>
    match frames with
    | [] => exact ⟨hr, by intro f hfm; cases hfm⟩
    | f :: rest =>
      have hfs : stmtsAllB p f.stmts = true := hf f (by simp)
      have hstmt : stmtAllB p (mkOpenerStmt f.opener f.stmts) = true := hop _ _ hfs
      match rest with
      | g :: rest' =>
        show stmtsAllB p (closeN n root _).1 = true ∧ FramesOk p (closeN n root _).2
        refine ih root ({ g with stmts := g.stmts ++ [mkOpenerStmt f.opener f.stmts] } :: rest') hr ?_
        intro f' hf'
        cases hf' with
        | head =>
          show stmtsAllB p (g.stmts ++ [mkOpenerStmt f.opener f.stmts]) = true
          rw [stmtsAllB_append]
          have hg : stmtsAllB p g.stmts = true := hf g (by simp)
          simp [stmtsAllB, hg, hstmt]
        | tail _ htl =>
          exact hf _ (List.mem_cons_of_mem _ (List.mem_cons_of_mem _ htl))
      | [] =>
        show stmtsAllB p (closeN n (root ++ [mkOpenerStmt f.opener f.stmts]) []).1 = true ∧ _
        refine ih (root ++ [mkOpenerStmt f.opener f.stmts]) [] ?_ ?_
        · rw [stmtsAllB_append]; simp [stmtsAllB, hr, hstmt]
        · intro f' hf'; cases hf'

/-- The statements a successful non-opener line appends: an assignment, an
expression statement whose expression passed the `CallExpression` check,
or a `const` statement. -/
def PlainStmt (stmt : Stmt) : Prop :=
  (∃ l r, stmt = Stmt.assignment l r) ∨
  (∃ e, stmt = Stmt.exprStmt e ∧ isCallExpr e = true) ∨
  (∃ l r, stmt = Stmt.constant l r)

/-- First token of a line that appends a plain statement. -/
def PlainHead (t : Token) : Prop :=
  (∃ v, t = Token.identifierToken v) ∨ t = Token.memoryToken ∨ t = Token.constToken

/-- First token of a line that opens a block. -/
def OpenHead (t : Token) : Prop :=
  t = Token.ifToken ∨ t = Token.whileToken ∨ t = Token.defToken

/-- Characterisation of a successful `stepLine`: the entry `minIndent`
bound was respected, the truncated stack has exactly `indent` frames, and
the new state either appended one plain statement to the top of the
truncated stack (resetting `minIndent`, bounding the next line by
`maxIndent = indent`) or pushed one fresh open frame (requiring
`minIndent = indent + 1` next). -/
theorem stepLine_ok_cases (st : PState) (lt : LineToken) (st' : PState)
    (h : stepLine st lt = .ok st') :
    (∀ m, st.minIndent = some m → m ≤ lt.indent) ∧
    (closeTo (lt.indent + 1) st.root st.frames).2.length = lt.indent ∧
    ∃ t0 ts, lt.tokens = t0 :: ts ∧
      ((∃ stmt, PlainStmt stmt ∧ PlainHead t0.tok ∧
          st' = ⟨(pushTop (closeTo (lt.indent + 1) st.root st.frames).1
                    (closeTo (lt.indent + 1) st.root st.frames).2 stmt).1,
                 (pushTop (closeTo (lt.indent + 1) st.root st.frames).1
                    (closeTo (lt.indent + 1) st.root st.frames).2 stmt).2,
                 Option.none, some lt.indent, some lt.column⟩) ∨
       (∃ o, OpenHead t0.tok ∧
          st' = ⟨(closeTo (lt.indent + 1) st.root st.frames).1,
                 ⟨o, []⟩ :: (closeTo (lt.indent + 1) st.root st.frames).2,
                 some (lt.indent + 1), Option.none, some lt.column⟩)) := by
  have hbind : ∀ {α β : Type} (x : Except PErr α) (f : α → Except PErr β) (b : β),
      (x >>= f) = .ok b → ∃ a, x = .ok a ∧ f a = .ok b := by
    intro α β x f b hx
    cases x with
    | ok a => exact ⟨a, rfl, hx⟩
    | error e => exact absurd hx (by simp [Bind.bind, Except.bind])
  unfold stepLine at h
  simp only [] at h
  split at h
  · exact Except.noConfusion h
  · rename_i hcond
    have hmin : ∀ m, st.minIndent = some m → m ≤ lt.indent := by
      intro m hm
      rw [hm] at hcond
      by_contra hlt
      exact hcond (by simp [decide_eq_true (Nat.lt_of_not_le hlt)])
    have hclen : ((closeTo (lt.indent + 1) st.root st.frames).2).length =
        st.frames.length - (st.frames.length + 1 - (lt.indent + 1)) := closeN_length _ _ _
    split at h
    · exact Except.noConfusion h
    rename_i t0 ts htoks
    split at h
    case _ => exact Except.noConfusion h
    case _ => exact Except.noConfusion h
    case _ => exact Except.noConfusion h
    case _ => exact Except.noConfusion h
    case _ => exact Except.noConfusion h
    case _ => exact Except.noConfusion h
    case _ => exact Except.noConfusion h
    case _ => exact Except.noConfusion h
    case _ =>
      -- identifierToken head
      rename_i v htok
      split at h
      · rename_i index hfind
        split at h
        · exact Except.noConfusion h
        · obtain ⟨left, hpl, h⟩ := hbind _ _ _ h
          split at h
          · exact Except.noConfusion h
          · split at h
            · exact Except.noConfusion h
            · obtain ⟨right, hpr, h⟩ := hbind _ _ _ h
              split at h
              · exact Except.noConfusion h
              · rename_i hholey
                have hlen : (closeTo (lt.indent + 1) st.root st.frames).2.length = lt.indent := by
                  simp only [decide_eq_true_eq] at hholey
                  omega
                exact ⟨hmin, hlen, t0, ts, htoks,
                  Or.inl ⟨Stmt.assignment left right, Or.inl ⟨left, right, rfl⟩,
                    Or.inl ⟨v, htok⟩, (Except.ok.inj h).symm⟩⟩
      · obtain ⟨e, hpe, h⟩ := hbind _ _ _ h
        split at h
        · exact Except.noConfusion h
        · rename_i hcall
          split at h
          · exact Except.noConfusion h
          · rename_i hholey
            have hlen : (closeTo (lt.indent + 1) st.root st.frames).2.length = lt.indent := by
              simp only [decide_eq_true_eq] at hholey
              omega
            have hcall' : isCallExpr e = true := by
              cases hcb : isCallExpr e
              · exact absurd hcb hcall
              · rfl
            exact ⟨hmin, hlen, t0, ts, htoks,
              Or.inl ⟨Stmt.exprStmt e, Or.inr (Or.inl ⟨e, rfl, hcall'⟩),
                Or.inl ⟨v, htok⟩, (Except.ok.inj h).symm⟩⟩
    case _ =>
      -- memoryToken head
      rename_i htok
      split at h
      · rename_i index hfind
        split at h
        · exact Except.noConfusion h
        · obtain ⟨left, hpl, h⟩ := hbind _ _ _ h
          split at h
          · exact Except.noConfusion h
          · split at h
            · exact Except.noConfusion h
            · obtain ⟨right, hpr, h⟩ := hbind _ _ _ h
              split at h
              · exact Except.noConfusion h
              · rename_i hholey
                have hlen : (closeTo (lt.indent + 1) st.root st.frames).2.length = lt.indent := by
                  simp only [decide_eq_true_eq] at hholey
                  omega
                exact ⟨hmin, hlen, t0, ts, htoks,
                  Or.inl ⟨Stmt.assignment left right, Or.inl ⟨left, right, rfl⟩,
                    Or.inr (Or.inl htok), (Except.ok.inj h).symm⟩⟩
      · obtain ⟨e, hpe, h⟩ := hbind _ _ _ h
        split at h
        · exact Except.noConfusion h
        · rename_i hcall
          split at h
          · exact Except.noConfusion h
          · rename_i hholey
            have hlen : (closeTo (lt.indent + 1) st.root st.frames).2.length = lt.indent := by
              simp only [decide_eq_true_eq] at hholey
              omega
            have hcall' : isCallExpr e = true := by
              cases hcb : isCallExpr e
              · exact absurd hcb hcall
              · rfl
            exact ⟨hmin, hlen, t0, ts, htoks,
              Or.inl ⟨Stmt.exprStmt e, Or.inr (Or.inl ⟨e, rfl, hcall'⟩),
                Or.inr (Or.inl htok), (Except.ok.inj h).symm⟩⟩
    case _ =>
      -- ifToken head
      rename_i htok
      split at h
      · exact Except.noConfusion h
      · obtain ⟨test, hpt, h⟩ := hbind _ _ _ h
        split at h
        · exact Except.noConfusion h
        · rename_i hholey
          have hlen : (closeTo (lt.indent + 1) st.root st.frames).2.length = lt.indent := by
            simp only [decide_eq_true_eq] at hholey
            omega
          exact ⟨hmin, hlen, t0, ts, htoks,
            Or.inr ⟨Opener.ifO test, Or.inl htok, (Except.ok.inj h).symm⟩⟩
    case _ =>
      -- whileToken head
      rename_i htok
      split at h
      · exact Except.noConfusion h
      · obtain ⟨test, hpt, h⟩ := hbind _ _ _ h
        split at h
        · exact Except.noConfusion h
        · rename_i hholey
          have hlen : (closeTo (lt.indent + 1) st.root st.frames).2.length = lt.indent := by
            simp only [decide_eq_true_eq] at hholey
            omega
          exact ⟨hmin, hlen, t0, ts, htoks,
            Or.inr ⟨Opener.whileO test, Or.inr (Or.inl htok), (Except.ok.inj h).symm⟩⟩
    case _ =>
      -- constToken head
      rename_i htok
      split at h
      · exact Except.noConfusion h
      · rename_i hind
        have hi0 : lt.indent = 0 := not_ne_iff.mp hind
        split at h
        · exact Except.noConfusion h
        · rename_i t1 rest2 hdrop
          split at h
          · rename_i w htok1
            obtain ⟨identifier, hpi, h⟩ := hbind _ _ _ h
            split at h
            · exact Except.noConfusion h
            · rename_i t2 rest3 hrest2
              split at h
              · exact Except.noConfusion h
              · split at h
                · exact Except.noConfusion h
                · obtain ⟨right, hpr, h⟩ := hbind _ _ _ h
                  have hlen : (closeTo (lt.indent + 1) st.root st.frames).2.length = lt.indent := by
                    omega
                  have hfe : (closeTo (lt.indent + 1) st.root st.frames).2 = [] :=
                    List.length_eq_zero.mp (by rw [hlen, hi0])
                  refine ⟨hmin, hlen, t0, ts, htoks,
                    Or.inl ⟨Stmt.constant identifier right,
                      Or.inr (Or.inr ⟨identifier, right, rfl⟩),
                      Or.inr (Or.inr htok), ?_⟩⟩
                  rw [(Except.ok.inj h).symm, hfe]
                  simp [pushTop]
          · exact Except.noConfusion h
    case _ =>
      -- defToken head
      rename_i htok
      split at h
      · exact Except.noConfusion h
      · rename_i hind
        have hi0 : lt.indent = 0 := not_ne_iff.mp hind
        split at h
        · exact Except.noConfusion h
        · rename_i t1 rest2 hdrop
          split at h
          · rename_i w htok1
            obtain ⟨identifier, hpi, h⟩ := hbind _ _ _ h
            split at h
            · exact Except.noConfusion h
            · rename_i t2 rest3 hrest2
              split at h
              · exact Except.noConfusion h
              · split at h
                · exact Except.noConfusion h
                · rename_i regions pEnd hreg
                  obtain ⟨params, hpp, h⟩ := hbind _ _ _ h
                  split at h
                  · exact Except.noConfusion h
                  · have hlen : (closeTo (lt.indent + 1) st.root st.frames).2.length = lt.indent := by
                      omega
                    exact ⟨hmin, hlen, t0, ts, htoks,
                      Or.inr ⟨Opener.defO identifier params, Or.inr (Or.inr htok),
                        (Except.ok.inj h).symm⟩⟩
          · exact Except.noConfusion h

theorem nonemptyBodies_mk (o : Opener) (b : List Stmt) (hb : b ≠ [])
    (hball : stmtsAllB nonemptyBodies b = true) :
    stmtAllB nonemptyBodies (mkOpenerStmt o b) = true := by
  cases o <;>
    simp [mkOpenerStmt, stmtAllB, nonemptyBodies, hball, List.isEmpty_iff, hb]

/-- Closing frames preserves the non-empty-bodies invariant provided the
innermost frame is non-empty (or nothing is closed); every deeper frame
receives its child's opener statement before being closed itself. -/
theorem closeN_ne (n : Nat) (root : List Stmt) (frames : List Frame)
    (hr : stmtsAllB nonemptyBodies root = true) (hf : FramesOk nonemptyBodies frames)
    (htop : n = 0 ∨ TopNE frames) :
    stmtsAllB nonemptyBodies (closeN n root frames).1 = true ∧
    FramesOk nonemptyBodies (closeN n root frames).2 ∧
    (TopNE frames → TopNE (closeN n root frames).2) := by
  induction n generalizing root frames with
  | zero => exact ⟨hr, hf, id⟩
  | succ n ih =>
    match frames with
    | [] => exact ⟨hr, fun f hfm => absurd hfm (List.not_mem_nil f), fun _ => trivial⟩
    | f :: rest =>
      have hfne : f.stmts ≠ [] := by
        rcases htop with h0 | htop
        · exact absurd h0 (Nat.succ_ne_zero n)
        · exact htop
      have hfs : stmtsAllB nonemptyBodies f.stmts = true := hf f (by simp)
      have hstmt := nonemptyBodies_mk f.opener f.stmts hfne hfs
      match rest with
      | g :: rest' =>
        have hf' : FramesOk nonemptyBodies
            ({ g with stmts := g.stmts ++ [mkOpenerStmt f.opener f.stmts] } :: rest') := by
          intro f' hf'
          cases hf' with
          | head =>
            show stmtsAllB nonemptyBodies (g.stmts ++ [mkOpenerStmt f.opener f.stmts]) = true
            rw [stmtsAllB_append]
            have hg : stmtsAllB nonemptyBodies g.stmts = true := hf g (by simp)
            simp [stmtsAllB, hg, hstmt]
          | tail _ htl =>
            exact hf _ (List.mem_cons_of_mem _ (List.mem_cons_of_mem _ htl))
        have htop' : TopNE ({ g with stmts := g.stmts ++ [mkOpenerStmt f.opener f.stmts] } :: rest') := by
          show g.stmts ++ [mkOpenerStmt f.opener f.stmts] ≠ []
          simp
        have hres := ih root _ hr hf' (Or.inr htop')
        exact ⟨hres.1, hres.2.1, fun _ => hres.2.2 htop'⟩
      | [] =>
        have hr' : stmtsAllB nonemptyBodies (root ++ [mkOpenerStmt f.opener f.stmts]) = true := by
          rw [stmtsAllB_append]; simp [stmtsAllB, hr, hstmt]
        have hres := ih (root ++ [mkOpenerStmt f.opener f.stmts]) []
          hr' (fun f' hf' => absurd hf' (List.not_mem_nil f')) (Or.inr trivial)
        exact ⟨hres.1, hres.2.1, fun _ => hres.2.2 trivial⟩

theorem pushTop_ok (p : Stmt → Bool) (root : List Stmt) (frames : List Frame) (stmt : Stmt)
    (hr : stmtsAllB p root = true) (hf : FramesOk p frames) (hs : stmtAllB p stmt = true) :
    stmtsAllB p (pushTop root frames stmt).1 = true ∧
    FramesOk p (pushTop root frames stmt).2 ∧ TopNE (pushTop root frames stmt).2 := by
  cases frames with
  | nil =>
    refine ⟨?_, fun f hfm => absurd hfm (List.not_mem_nil f), trivial⟩
    rw [show (pushTop root [] stmt).1 = root ++ [stmt] from rfl, stmtsAllB_append]
    simp [stmtsAllB, hr, hs]
  | cons f rest =>
    refine ⟨hr, ?_, ?_⟩
    · intro f' hf'
      cases hf' with
      | head =>
        show stmtsAllB p (f.stmts ++ [stmt]) = true
        rw [stmtsAllB_append]
        simp [stmtsAllB, hf f (by simp), hs]
      | tail _ htl => exact hf _ (List.mem_cons_of_mem _ htl)
    · show f.stmts ++ [stmt] ≠ []
      simp

/-- The driver invariant behind C7: all statements already built have
non-empty block bodies hereditarily, all open frames likewise, and either
the innermost frame already holds a statement (`minIndent` unset) or
`minIndent` equals the frame count, so that the next accepted line cannot
close the freshly opened empty frame. -/
def DInvNE (st : PState) : Prop :=
  stmtsAllB nonemptyBodies st.root = true ∧ FramesOk nonemptyBodies st.frames ∧
  (match st.minIndent with
   | some m => m = st.frames.length
   | Option.none => TopNE st.frames)

theorem stepLine_DInvNE {st : PState} {lt : LineToken} {st' : PState}
    (hinv : DInvNE st) (h : stepLine st lt = .ok st') : DInvNE st' := by
  obtain ⟨hmin, hlen, t0, ts, htoks, hcase⟩ := stepLine_ok_cases st lt st' h
  obtain ⟨hroot, hframes, hmi⟩ := hinv
  have hcl : stmtsAllB nonemptyBodies (closeTo (lt.indent + 1) st.root st.frames).1 = true ∧
      FramesOk nonemptyBodies (closeTo (lt.indent + 1) st.root st.frames).2 := by
    cases hmi2 : st.minIndent with
    | some m =>
      rw [hmi2] at hmi
      have hle : m ≤ lt.indent := hmin m hmi2
      have hn0 : st.frames.length + 1 - (lt.indent + 1) = 0 := by omega
      have hcleq : closeTo (lt.indent + 1) st.root st.frames = (st.root, st.frames) := by
        unfold closeTo
        rw [hn0]
        exact closeN_zero _ _
      rw [hcleq]
      exact ⟨hroot, hframes⟩
    | none =>
      rw [hmi2] at hmi
      have hres := closeN_ne (st.frames.length + 1 - (lt.indent + 1)) st.root st.frames
        hroot hframes (Or.inr hmi)
      exact ⟨hres.1, hres.2.1⟩
  rcases hcase with ⟨stmt, hps, hph, hst'⟩ | ⟨o, hoh, hst'⟩
  · have hsok : stmtAllB nonemptyBodies stmt = true := by
      rcases hps with ⟨l, r, rfl⟩ | ⟨e, rfl, hc⟩ | ⟨l, r, rfl⟩ <;> rfl
    have hp := pushTop_ok nonemptyBodies _ _ stmt hcl.1 hcl.2 hsok
    rw [hst']
    exact ⟨hp.1, hp.2.1, hp.2.2⟩
  · rw [hst']
    refine ⟨hcl.1, ?_, ?_⟩
    · intro f hfm
      cases hfm with
      | head => rfl
      | tail _ htl => exact hcl.2 _ htl
    · show lt.indent + 1 = (⟨o, []⟩ :: (closeTo (lt.indent + 1) st.root st.frames).2).length
      simp [hlen]

theorem stepLine_lastColumn {st : PState} {lt : LineToken} {st' : PState}
    (h : stepLine st lt = .ok st') : st'.lastColumn = some lt.column := by
  obtain ⟨_, _, t0, ts, htoks, hcase⟩ := stepLine_ok_cases st lt st' h
  rcases hcase with ⟨stmt, _, _, hst'⟩ | ⟨o, _, hst'⟩ <;> rw [hst']

theorem parseLines_DInvNE : ∀ (ls : List LineToken) (st st' : PState),
    DInvNE st → parseLines ls st = .ok st' → DInvNE st' := by
  intro ls
  induction ls with
  | nil =>
    intro st st' hinv h
    rw [show parseLines [] st = .ok st from rfl] at h
    rw [← Except.ok.inj h]
    exact hinv
  | cons l rest ih =>
    intro st st' hinv h
    rw [show parseLines (l :: rest) st = (stepLine st l >>= parseLines rest) from rfl] at h
    cases hs : stepLine st l with
    | error e => rw [hs] at h; exact absurd h (by simp [Bind.bind, Except.bind])
    | ok st1 =>
      rw [hs] at h
      exact ih st1 st' (stepLine_DInvNE hinv hs) h

theorem parseLines_lastColumn : ∀ (ls : List LineToken) (st st' : PState),
    parseLines ls st = .ok st' → st' = st ∨ ∃ c, st'.lastColumn = some c := by
  intro ls
  induction ls with
  | nil =>
    intro st st' h
    exact Or.inl (Except.ok.inj h).symm
  | cons l rest ih =>
    intro st st' h
    rw [show parseLines (l :: rest) st = (stepLine st l >>= parseLines rest) from rfl] at h
    cases hs : stepLine st l with
    | error e => rw [hs] at h; exact absurd h (by simp [Bind.bind, Except.bind])
    | ok st1 =>
      rw [hs] at h
      rcases ih st1 st' h with rfl | hc
      · exact Or.inr ⟨l.column, stepLine_lastColumn hs⟩
      · exact Or.inr hc

theorem parseLines_snoc (ls : List LineToken) (L : LineToken) (st st' : PState)
    (h : parseLines (ls ++ [L]) st = .ok st') :
    ∃ mid, parseLines ls st = .ok mid ∧ stepLine mid L = .ok st' := by
  induction ls generalizing st with
  | nil =>
    rw [show parseLines ([] ++ [L]) st = (stepLine st L >>= parseLines []) from rfl] at h
    cases hs : stepLine st L with
    | error e => rw [hs] at h; exact absurd h (by simp [Bind.bind, Except.bind])
    | ok st1 =>
      rw [hs] at h
      refine ⟨st, rfl, ?_⟩
      rw [hs]
      exact h
  | cons l rest ih =>
    rw [show parseLines ((l :: rest) ++ [L]) st = (stepLine st l >>= parseLines (rest ++ [L])) from rfl] at h
    cases hs : stepLine st l with
    | error e => rw [hs] at h; exact absurd h (by simp [Bind.bind, Except.bind])
    | ok st1 =>
      rw [hs] at h
      obtain ⟨mid, hmid, hstep⟩ := ih st1 h
      refine ⟨mid, ?_, hstep⟩
      rw [show parseLines (l :: rest) st = (stepLine st l >>= parseLines rest) from rfl, hs]
      exact hmid

theorem exceptBind_ok {α β : Type} (x : Except PErr α) (f : α → Except PErr β) (b : β)
    (hx : (x >>= f) = .ok b) : ∃ a, x = .ok a ∧ f a = .ok b := by
  cases x with
  | ok a => exact ⟨a, rfl, hx⟩
  | error e => exact absurd hx (by simp [Bind.bind, Except.bind])

theorem not_plain_and_open (t : Token) (hp : PlainHead t) (ho : OpenHead t) : False := by
  rcases ho with h1 | h1 | h1 <;> rcases hp with ⟨v, h2⟩ | h2 | h2 <;>
    rw [h1] at h2 <;> exact Token.noConfusion h2

/-- C7: programs returned by `parse` have non-empty `if`/`while`/`def`
bodies throughout, and a final line that opens a block (first token `if`,
`while` or `def`) always aborts the parse with the body-less-block error
naming that line's column. -/
theorem claim7_nonempty_bodies :
    (∀ ls p, parse ls = .ok p → stmtsAllB nonemptyBodies p.body = true) ∧
    (∀ ls L t0 ts st, L.tokens = t0 :: ts → OpenHead t0.tok →
      parseLines (ls ++ [L]) ⟨[], [], Option.none, Option.none, Option.none⟩ = .ok st →
      parse (ls ++ [L]) = .error (.parseError (msg1 L.column
        "There is no body for the last `if` or `while` or `def` statement"))) := by
  constructor
  · intro ls p h
    unfold parse at h
    obtain ⟨st, hpl, h⟩ := exceptBind_ok _ _ _ h
    have hinv := parseLines_DInvNE ls ⟨[], [], Option.none, Option.none, Option.none⟩ st
      ⟨rfl, fun f hf => absurd hf (List.not_mem_nil f), trivial⟩ hpl
    split at h
    · exact Except.noConfusion h
    · rename_i hif
      have hmin_none : st.minIndent = Option.none := by
        cases hmc : st.minIndent with
        | none => rfl
        | some m =>
          rcases parseLines_lastColumn ls _ st hpl with rfl | ⟨c, hc⟩
          · exact absurd hmc (by simp)
          · exact absurd (by simp [hmc, hc] : (st.minIndent.isSome && st.lastColumn.isSome) = true) hif
      obtain ⟨hroot, hframes, hmi⟩ := hinv
      rw [hmin_none] at hmi
      have hres := closeN_ne (st.frames.length + 1 - 1) st.root st.frames hroot hframes (Or.inr hmi)
      rw [← Except.ok.inj h]
      exact hres.1
  · intro ls L t0 ts st htoks hopen hpl
    obtain ⟨mid, hmid, hstep⟩ := parseLines_snoc ls L _ st hpl
    obtain ⟨_, _, t0', ts', htoks', hcase⟩ := stepLine_ok_cases mid L st hstep
    have ht0 : t0' = t0 := by
      rw [htoks] at htoks'
      exact (List.cons.inj htoks').1.symm
    rcases hcase with ⟨stmt, _, hph, _⟩ | ⟨o, _, hst'⟩
    · exact absurd hopen (fun ho => not_plain_and_open t0.tok (ht0 ▸ hph) ho)
    · unfold parse
      rw [hpl, hst']
      rfl

/-- Witness for C7: the two-line program `if x / y -> 1` parses with a
non-empty `if` body, and the single opener line `if x` aborts with the
body-less-block error. -/
theorem claim7_nonempty_bodies_witness :
    stmtsAllB nonemptyBodies
      [Stmt.ifStmt (.ident "x") [Stmt.assignment (.ident "y") (.num 1)]] = true ∧
    parse [⟨1, 0, [⟨.ifToken, 1⟩, ⟨.identifierToken "x", 4⟩]⟩] =
      .error (.parseError (msg1 1
        "There is no body for the last `if` or `while` or `def` statement")) :=
  ⟨claim7_nonempty_bodies.1
      [⟨1, 0, [⟨.ifToken, 1⟩, ⟨.identifierToken "x", 4⟩]⟩,
       ⟨2, 1, [⟨.identifierToken "y", 1⟩, ⟨.assignmentToken, 3⟩, ⟨.numericLiteralToken "1", 6⟩]⟩]
      ⟨[Stmt.ifStmt (.ident "x") [Stmt.assignment (.ident "y") (.num 1)]]⟩ rfl,
   claim7_nonempty_bodies.2 [] ⟨1, 0, [⟨.ifToken, 1⟩, ⟨.identifierToken "x", 4⟩]⟩
      ⟨.ifToken, 1⟩ [⟨.identifierToken "x", 4⟩] _ rfl (Or.inl rfl) rfl⟩

theorem exprStmtIsCall_mk (o : Opener) (b : List Stmt)
    (hb : stmtsAllB exprStmtIsCall b = true) :
    stmtAllB exprStmtIsCall (mkOpenerStmt o b) = true := by
  cases o <;> simp [mkOpenerStmt, stmtAllB, exprStmtIsCall, hb]

theorem stepLine_DInvC {st : PState} {lt : LineToken} {st' : PState}
    (hroot : stmtsAllB exprStmtIsCall st.root = true)
    (hframes : FramesOk exprStmtIsCall st.frames)
    (h : stepLine st lt = .ok st') :
    stmtsAllB exprStmtIsCall st'.root = true ∧ FramesOk exprStmtIsCall st'.frames := by
  obtain ⟨hmin, hlen, t0, ts, htoks, hcase⟩ := stepLine_ok_cases st lt st' h
  have hcl := closeN_ok exprStmtIsCall (fun o b hb => exprStmtIsCall_mk o b hb)
    (st.frames.length + 1 - (lt.indent + 1)) st.root st.frames hroot hframes
  rcases hcase with ⟨stmt, hps, hph, hst'⟩ | ⟨o, hoh, hst'⟩
  · have hsok : stmtAllB exprStmtIsCall stmt = true := by
      rcases hps with ⟨l, r, rfl⟩ | ⟨e, rfl, hc⟩ | ⟨l, r, rfl⟩
      · rfl
      · show exprStmtIsCall (Stmt.exprStmt e) = true
        simp [exprStmtIsCall, hc]
      · rfl
    have hp := pushTop_ok exprStmtIsCall _ _ stmt hcl.1 hcl.2 hsok
    rw [hst']
    exact ⟨hp.1, hp.2.1⟩
  · rw [hst']
    refine ⟨hcl.1, ?_⟩
    intro f hfm
    cases hfm with
    | head => rfl
    | tail _ htl => exact hcl.2 _ htl

theorem parseLines_DInvC : ∀ (ls : List LineToken) (st st' : PState),
    stmtsAllB exprStmtIsCall st.root = true → FramesOk exprStmtIsCall st.frames →
    parseLines ls st = .ok st' →
    stmtsAllB exprStmtIsCall st'.root = true ∧ FramesOk exprStmtIsCall st'.frames := by
  intro ls
  induction ls with
  | nil =>
    intro st st' hr hf h
    rw [← Except.ok.inj h]
    exact ⟨hr, hf⟩
  | cons l rest ih =>
    intro st st' hr hf h
    rw [show parseLines (l :: rest) st = (stepLine st l >>= parseLines rest) from rfl] at h
    cases hs : stepLine st l with
    | error e => rw [hs] at h; exact absurd h (by simp [Bind.bind, Except.bind])
    | ok st1 =>
      rw [hs] at h
      have h1 := stepLine_DInvC hr hf hs
      exact ih st1 st' h1.1 h1.2 h

/-- C8: a line headed by an identifier or `memory` token that contains no
assignment token is accepted only when it parses to a `CallExpression`
(any other expression shape makes `parse` fail on that line), and every
`ExpressionStatement` of every program `parse` returns holds a
`CallExpression`. -/
theorem claim8_expression_statements :
    (∀ col ind tokens (t0 : RToken) ts e, tokens = t0 :: ts →
      ((∃ v, t0.tok = Token.identifierToken v) ∨ t0.tok = Token.memoryToken) →
      (∀ t, t ∈ tokens → t.tok ≠ Token.assignmentToken) →
      parseExpression col tokens Option.none = .ok e →
      isCallExpr e = false →
      ∀ st st', stepLine st ⟨col, ind, tokens⟩ ≠ .ok st') ∧
    (∀ ls p, parse ls = .ok p → stmtsAllB exprStmtIsCall p.body = true) := by
  constructor
  · intro col ind tokens t0 ts e htoks hhead hna hpe hnc st st' h
    subst htoks
    have hfind : List.findIdx? (fun t => decide (t.tok = Token.assignmentToken)) (t0 :: ts) =
        Option.none := by
      rw [List.findIdx?_eq_none_iff]
      intro t ht
      simp [hna t ht]
    unfold stepLine at h
    simp only [] at h
    split at h
    · exact Except.noConfusion h
    · split at h
      case _ heq => exact Except.noConfusion h
      case _ heq => exact Except.noConfusion h
      case _ heq => exact Except.noConfusion h
      case _ heq => exact Except.noConfusion h
      case _ heq => exact Except.noConfusion h
      case _ heq => exact Except.noConfusion h
      case _ heq => exact Except.noConfusion h
      case _ heq => exact Except.noConfusion h
      case _ v heq =>
        -- identifierToken head: no assignment token present
        split at h
        · rename_i index hsome
          rw [hfind] at hsome
          exact Option.noConfusion hsome
        · obtain ⟨e', hpe', h⟩ := exceptBind_ok _ _ _ h
          rw [hpe] at hpe'
          have he : e = e' := Except.ok.inj hpe'
          split at h
          · exact Except.noConfusion h
          · rename_i hncond
            exact hncond (by rw [← he, hnc])
      case _ heq =>
        -- memoryToken head
        split at h
        · rename_i index hsome
          rw [hfind] at hsome
          exact Option.noConfusion hsome
        · obtain ⟨e', hpe', h⟩ := exceptBind_ok _ _ _ h
          rw [hpe] at hpe'
          have he : e = e' := Except.ok.inj hpe'
          split at h
          · exact Except.noConfusion h
          · rename_i hncond
            exact hncond (by rw [← he, hnc])
      case _ heq =>
        rcases hhead with ⟨v, hv⟩ | hv <;> rw [heq] at hv <;> exact Token.noConfusion hv
      case _ heq =>
        rcases hhead with ⟨v, hv⟩ | hv <;> rw [heq] at hv <;> exact Token.noConfusion hv
      case _ heq =>
        rcases hhead with ⟨v, hv⟩ | hv <;> rw [heq] at hv <;> exact Token.noConfusion hv
      case _ heq =>
        rcases hhead with ⟨v, hv⟩ | hv <;> rw [heq] at hv <;> exact Token.noConfusion hv
  · intro ls p h
    unfold parse at h
    obtain ⟨st, hpl, h⟩ := exceptBind_ok _ _ _ h
    have hinv := parseLines_DInvC ls ⟨[], [], Option.none, Option.none, Option.none⟩ st
      rfl (fun f hf => absurd hf (List.not_mem_nil f)) hpl
    split at h
    · exact Except.noConfusion h
    · have hres := closeN_ok exprStmtIsCall (fun o b hb => exprStmtIsCall_mk o b hb)
        (st.frames.length + 1 - 1) st.root st.frames hinv.1 hinv.2
      rw [← Except.ok.inj h]
      exact hres.1

/-- Witness for C8: the bare-identifier line `x` is rejected however the
driver state looks, and the call-statement program `f()` parses with its
expression statement holding a `CallExpression`. -/
theorem claim8_expression_statements_witness :
    (∀ st st', stepLine st ⟨1, 0, [⟨.identifierToken "x", 1⟩]⟩ ≠ .ok st') ∧
    stmtsAllB exprStmtIsCall [Stmt.exprStmt (.call "f" [])] = true :=
  ⟨claim8_expression_statements.1 1 0 [⟨.identifierToken "x", 1⟩] ⟨.identifierToken "x", 1⟩ []
      (.ident "x") rfl (Or.inl ⟨"x", rfl⟩)
      (fun t ht => by
        cases ht with
        | head => exact fun hc => Token.noConfusion hc
        | tail _ htl => exact absurd htl (List.not_mem_nil t))
      rfl rfl,
   claim8_expression_statements.2
      [⟨1, 0, [⟨.identifierToken "f", 1⟩, ⟨.parentheseStartToken, 2⟩, ⟨.parentheseEndToken, 3⟩]⟩]
      ⟨[Stmt.exprStmt (.call "f" [])]⟩ rfl⟩

/-- C5 amended: when a block comment is still open after all lines are
consumed, `tokenise` reports `"<c>: The multi-line comment is not closed"`
where `c` is the column of the last **emitted** `LineToken` (not the last
line of the input); when no `LineToken` was emitted at all, the access
`lineTokens[lineTokens.length - 1].column` crashes with a `TypeError`. -/
theorem claim5_amended (source : String) (ts : List LineToken) (d : Nat)
    (h : tokeniseAux (splitLines source.data) 0 [0] 0 = .ok (ts, d)) (hd : d ≠ 0) :
    parseToTokens source =
      (match ts.getLast? with
       | some t => .error (.parseError (msg1 t.column "The multi-line comment is not closed"))
       | Option.none => .error .typeError) := by
  unfold parseToTokens
  rw [h]
  simp only [Bind.bind, Except.bind]
  rw [if_pos hd]

/-- Witness for C5 amended at `"x -> 1\n/*"`: one `LineToken` was emitted
(column 1) and the comment depth is 1 at end of input. -/
theorem claim5_amended_witness :
    parseToTokens "x -> 1\n/*" =
      .error (.parseError (msg1 1 "The multi-line comment is not closed")) :=
  claim5_amended "x -> 1\n/*"
    [⟨1, 0, [⟨.identifierToken "x", 1⟩, ⟨.assignmentToken, 3⟩, ⟨.numericLiteralToken "1", 6⟩]⟩]
    1 rfl (by decide)

/-- The `(column, indent)` pair the indent machinery assigns to every
processed non-empty raw line — including whitespace-only and comment-only
lines, which are omitted from the token output but still run the
indent-stack update.  Built from the same `indentStep` as `tokeniseAux`. -/
def processedIndentsAux : List (List Char) → Nat → List Nat → Except PErr (List (Nat × Nat))
  | [], _, _ => .ok []
  | raw :: rest, col, indents =>
      if raw = [] then processedIndentsAux rest (col + 1) indents
      else do
        let indents' ← indentStep indents (spaceCount raw) col
        let tail ← processedIndentsAux rest (col + 1) indents'
        .ok ((col + 1, indents'.length - 1) :: tail)

/-- The per-line indent assignments of a whole source. -/
def processedIndents (source : String) : Except PErr (List (Nat × Nat)) :=
  processedIndentsAux (splitLines source.data) 0 [0]

theorem indentStep_length (indents : List Nat) (space col : Nat) (indents' : List Nat)
    (h : indentStep indents space col = .ok indents') (hne : indents ≠ []) :
    indents'.length ≤ indents.length + 1 ∧ indents' ≠ [] := by
  unfold indentStep at h
  split at h
  · rename_i i hfind
    rw [← Except.ok.inj h]
    constructor
    · calc (indents.take (i + 1)).length ≤ indents.length := by
            rw [List.length_take]; omega
        _ ≤ indents.length + 1 := Nat.le_succ _
    · rw [Ne, List.take_eq_nil_iff]
      push_neg
      exact ⟨Nat.succ_ne_zero i, hne⟩
  · split at h
    · exact Except.noConfusion h
    · rw [← Except.ok.inj h]
      constructor
      · simp
      · simp

/-- The simultaneous induction behind C2: a successful `tokeniseAux` run
has a successful `processedIndentsAux` run over the same lines, the
processed indents grow by at most one per processed line (seeded with the
incoming stack's top position), and every emitted `LineToken`'s
`(column, indent)` is one of the processed assignments. -/
theorem tokeniseAux_processed : ∀ (lines : List (List Char)) (col : Nat) (indents : List Nat)
    (depth : Nat) (ts : List LineToken) (d : Nat),
    indents ≠ [] →
    tokeniseAux lines col indents depth = .ok (ts, d) →
    ∃ pis, processedIndentsAux lines col indents = .ok pis ∧
      List.Chain' (fun a b => b.2 ≤ a.2 + 1) ((0, indents.length - 1) :: pis) ∧
      ∀ t ∈ ts, (t.column, t.indent) ∈ pis := by
  intro lines
  induction lines with
  | nil =>
    intro col indents depth ts d hne h
    refine ⟨[], rfl, List.chain'_singleton _, ?_⟩
    have hts : ([] : List LineToken) = ts := congrArg Prod.fst (Except.ok.inj h)
    intro t ht
    rw [← hts] at ht
    exact absurd ht (List.not_mem_nil t)
  | cons raw rest ih =>
    intro col indents depth ts d hne h
    unfold tokeniseAux at h
    by_cases hraw : raw = []
    · rw [if_pos hraw] at h
      obtain ⟨pis, hpi, hch, hmem⟩ := ih (col + 1) indents depth ts d hne h
      refine ⟨pis, ?_, hch, hmem⟩
      unfold processedIndentsAux
      rw [if_pos hraw]
      exact hpi
    · rw [if_neg hraw] at h
      obtain ⟨sc, hsc, h⟩ := exceptBind_ok _ _ _ h
      obtain ⟨tokens, depth'⟩ := sc
      obtain ⟨indents', hstep, h⟩ := exceptBind_ok _ _ _ h
      obtain ⟨tsd, hrest, h⟩ := exceptBind_ok _ _ _ h
      obtain ⟨ts', d'⟩ := tsd
      simp only [] at h
      obtain ⟨hlen, hne'⟩ := indentStep_length indents (spaceCount raw) col indents' hstep hne
      obtain ⟨pis', hpi', hch', hmem'⟩ := ih (col + 1) indents' depth' ts' d' hne' hrest
      have hpis : processedIndentsAux (raw :: rest) col indents =
          .ok ((col + 1, indents'.length - 1) :: pis') := by
        unfold processedIndentsAux
        rw [if_neg hraw, hstep]
        show (processedIndentsAux rest (col + 1) indents' >>= fun tail =>
          .ok ((col + 1, indents'.length - 1) :: tail)) = _
        rw [hpi']
        rfl
      have hchain : List.Chain' (fun a b => b.2 ≤ a.2 + 1)
          ((0, indents.length - 1) :: (col + 1, indents'.length - 1) :: pis') := by
        refine List.Chain'.cons ?_ ?_
        · show indents'.length - 1 ≤ indents.length - 1 + 1
          have : 1 ≤ indents.length := List.length_pos.mpr hne
          omega
        · cases pis' with
          | nil => exact List.chain'_singleton _
          | cons q qs =>
            exact List.Chain'.cons (List.chain'_cons.mp hch').1 (List.chain'_cons.mp hch').2
      refine ⟨(col + 1, indents'.length - 1) :: pis', hpis, hchain, ?_⟩
      intro t ht
      split at h
      · have hts : ts' = ts := congrArg Prod.fst (Except.ok.inj h)
        rw [← hts] at ht
        exact List.mem_cons_of_mem _ (hmem' t ht)
      · have hts : (⟨col + 1, indents'.length - 1, tokens⟩ : LineToken) :: ts' = ts :=
          congrArg Prod.fst (Except.ok.inj h)
        rw [← hts] at ht
        cases ht with
        | head => exact List.mem_cons_self _ _
        | tail _ htl => exact List.mem_cons_of_mem _ (hmem' t htl)

/-- C2 amended: every emitted `LineToken`'s `(column, indent)` is one of
the per-line indent assignments of the source, and those assignments grow
by at most 1 per **processed** line — where processed lines include the
whitespace-only and comment-only lines omitted from the output (the
original bound `[0, previous_emitted_max + 1]` fails exactly because such
omitted lines can push indent levels). -/
theorem claim2_amended (source : String) (ts : List LineToken)
    (h : tokenise source = .ok ts) :
    ∃ pis, processedIndents source = .ok pis ∧
      List.Chain' (fun a b => b.2 ≤ a.2 + 1) ((0, 0) :: pis) ∧
      ∀ t ∈ ts, (t.column, t.indent) ∈ pis := by
  unfold tokenise parseToTokens at h
  obtain ⟨tsd, htk, h⟩ := exceptBind_ok _ _ _ h
  have hts : tsd.1 = ts := by
    rcases tsd with ⟨ts0, d⟩
    simp only [] at h
    split at h
    · split at h <;> exact Except.noConfusion h
    · exact Except.ok.inj h
  obtain ⟨pis, hpi, hch, hmem⟩ := tokeniseAux_processed (splitLines source.data) 0 [0]
    0 tsd.1 tsd.2 (by simp) (by rw [← htk])
  exact ⟨pis, hpi, hch, fun t ht => hmem t (hts ▸ ht)⟩

/-- Witness for C2 amended at the counterexample source: the processed
lines get indents 0, 1, 2 (the omitted whitespace-only line carries
indent 1), each within one of its predecessor. -/
theorem claim2_amended_witness :
    ∃ pis, processedIndents "x -> 1\n  \n    y -> 2" = .ok pis ∧
      List.Chain' (fun a b => b.2 ≤ a.2 + 1) ((0, 0) :: pis) ∧
      ∀ t ∈ [(⟨1, 0, [⟨.identifierToken "x", 1⟩, ⟨.assignmentToken, 3⟩, ⟨.numericLiteralToken "1", 6⟩]⟩ : LineToken),
             ⟨3, 2, [⟨.identifierToken "y", 1⟩, ⟨.assignmentToken, 3⟩, ⟨.numericLiteralToken "2", 6⟩]⟩],
        (t.column, t.indent) ∈ pis :=
  claim2_amended "x -> 1\n  \n    y -> 2" _ rfl

/-- UTF-16-unit length of a codepoint sequence (the tokeniser's row
metric). -/
def unitLen : List Char → Nat
  | [] => 0
  | c :: rest => charWidth c + unitLen rest

/-- The source text each token kind was recognised from. -/
def lexeme : Token → List Char
  | .identifierToken v => v.data
  | .memoryToken => "memory".data
  | .ifToken => "if".data
  | .whileToken => "while".data
  | .defToken => "def".data
  | .constToken => "const".data
  | .numericLiteralToken v => v.data
  | .operatorToken v => v.data
  | .separatorToken => [',']
  | .assignmentToken => ['-', '>']
  | .parentheseStartToken => ['(']
  | .parentheseEndToken => [')']
  | .bracketStartToken => ['[']
  | .bracketEndToken => [']']

theorem unitLen_append (a b : List Char) : unitLen (a ++ b) = unitLen a + unitLen b := by
  induction a with
  | nil => simp [unitLen]
  | cons c rest ih => simp [unitLen, ih]; omega

theorem lexeme_wordToken (chars : List Char) : lexeme (wordToken (String.mk chars)) = chars := by
  unfold wordToken
  split_ifs with h1 h2 h3 h4 h5
  · have h' : chars = "memory".data := congrArg String.data h1
    rw [h']; rfl
  · have h' : chars = "if".data := congrArg String.data h2
    rw [h']; rfl
  · have h' : chars = "while".data := congrArg String.data h3
    rw [h']; rfl
  · have h' : chars = "def".data := congrArg String.data h4
    rw [h']; rfl
  · have h' : chars = "const".data := congrArg String.data h5
    rw [h']; rfl
  · rfl

/-- What the scanner's pending state says about the already-consumed
prefix of the line: the state's `startRow` marks where its pending lexeme
begins, and the pending characters are exactly the prefix's tail. -/
def StateInv (pref : List Char) : ScanState → Prop
  | .none => True
  | .identifier s chars => ∃ p0, pref = p0 ++ chars ∧ unitLen p0 = s
  | .literal s chars => ∃ p0, pref = p0 ++ chars ∧ unitLen p0 = s
  | .minus s => ∃ p0, pref = p0 ++ ['-'] ∧ unitLen p0 = s
  | .angleOrExclamation s a => ∃ p0, pref = p0 ++ [a] ∧ unitLen p0 = s
  | .slash s => ∃ p0, pref = p0 ++ ['/'] ∧ unitLen p0 = s

/-- A token's lexeme occurs in `text` starting at unit offset `off`. -/
def OccursAt (text : List Char) (off : Nat) (lx : List Char) : Prop :=
  ∃ u v, text = u ++ lx ++ v ∧ unitLen u = off

theorem stateFlushEOL_facts (col : Nat) (state : ScanState) (pref : List Char)
    (ts : List RToken) (hinv : StateInv pref state)
    (h : stateFlushEOL col state = .ok ts) :
    ∀ rt ∈ ts, 1 ≤ rt.row ∧ OccursAt pref (rt.row - 1) (lexeme rt.tok) := by
  intro rt hrt
  cases state with
  | none =>
    rw [← Except.ok.inj h] at hrt
    exact absurd hrt (List.not_mem_nil rt)
  | identifier s chars =>
    obtain ⟨p0, hp, hu⟩ := hinv
    rw [← Except.ok.inj h] at hrt
    rcases List.mem_singleton.mp hrt with rfl
    exact ⟨Nat.le_add_left 1 s, p0, [], by simp [lexeme_wordToken, hp], by simp [hu]⟩
  | literal s chars =>
    obtain ⟨p0, hp, hu⟩ := hinv
    rw [← Except.ok.inj h] at hrt
    rcases List.mem_singleton.mp hrt with rfl
    exact ⟨Nat.le_add_left 1 s, p0, [], by simp [lexeme, hp], by simp [hu]⟩
  | minus s =>
    obtain ⟨p0, hp, hu⟩ := hinv
    rw [← Except.ok.inj h] at hrt
    rcases List.mem_singleton.mp hrt with rfl
    exact ⟨Nat.le_add_left 1 s, p0, [], by simp [lexeme, hp], by simp [hu]⟩
  | angleOrExclamation s a =>
    obtain ⟨p0, hp, hu⟩ := hinv
    by_cases ha : a = '!'
    · rw [show stateFlushEOL col (.angleOrExclamation s a) =
        .error (.parseError (msg2 (col + 1) (s + 1) "There should be only '=' after the '!'")) from by
          simp only [stateFlushEOL]; rw [if_pos ha]] at h
      exact absurd h (by simp)
    · rw [show stateFlushEOL col (.angleOrExclamation s a) =
        .ok [⟨.operatorToken (String.mk [a]), s + 1⟩] from by
          simp only [stateFlushEOL]; rw [if_neg ha]] at h
      rw [← Except.ok.inj h] at hrt
      rcases List.mem_singleton.mp hrt with rfl
      exact ⟨Nat.le_add_left 1 s, p0, [], by simp [lexeme, hp], by simp [hu]⟩
  | slash s =>
    obtain ⟨p0, hp, hu⟩ := hinv
    rw [← Except.ok.inj h] at hrt
    rcases List.mem_singleton.mp hrt with rfl
    exact ⟨Nat.le_add_left 1 s, p0, [], by simp [lexeme, hp], by simp [hu]⟩

theorem stateStep_flushed_facts (col : Nat) (state : ScanState) (c : Char) (pref : List Char)
    (ts : List RToken) (hinv : StateInv pref state)
    (h : stateStep col state c = .flushed ts) :
    ∀ rt ∈ ts, 1 ≤ rt.row ∧ OccursAt pref (rt.row - 1) (lexeme rt.tok) := by
  intro rt hrt
  cases state with
  | none =>
    rw [← StatePhase.flushed.inj h] at hrt
    exact absurd hrt (List.not_mem_nil rt)
  | identifier s chars =>
    obtain ⟨p0, hp, hu⟩ := hinv
    simp only [stateStep] at h
    split at h
    · exact StatePhase.noConfusion h
    · rw [← StatePhase.flushed.inj h] at hrt
      rcases List.mem_singleton.mp hrt with rfl
      exact ⟨Nat.le_add_left 1 s, p0, [], by simp [lexeme_wordToken, hp], by simp [hu]⟩
  | literal s chars =>
    obtain ⟨p0, hp, hu⟩ := hinv
    simp only [stateStep] at h
    split at h
    · exact StatePhase.noConfusion h
    · rw [← StatePhase.flushed.inj h] at hrt
      rcases List.mem_singleton.mp hrt with rfl
      exact ⟨Nat.le_add_left 1 s, p0, [], by simp [lexeme, hp], by simp [hu]⟩
  | minus s =>
    obtain ⟨p0, hp, hu⟩ := hinv
    simp only [stateStep] at h
    split at h
    · exact StatePhase.noConfusion h
    · rw [← StatePhase.flushed.inj h] at hrt
      rcases List.mem_singleton.mp hrt with rfl
      exact ⟨Nat.le_add_left 1 s, p0, [], by simp [lexeme, hp], by simp [hu]⟩
  | angleOrExclamation s a =>
    obtain ⟨p0, hp, hu⟩ := hinv
    simp only [stateStep] at h
    split at h
    · exact StatePhase.noConfusion h
    · split at h
      · exact StatePhase.noConfusion h
      · rw [← StatePhase.flushed.inj h] at hrt
        rcases List.mem_singleton.mp hrt with rfl
        exact ⟨Nat.le_add_left 1 s, p0, [], by simp [lexeme, hp], by simp [hu]⟩
  | slash s =>
    obtain ⟨p0, hp, hu⟩ := hinv
    simp only [stateStep] at h
    split at h
    · exact StatePhase.noConfusion h
    · rw [← StatePhase.flushed.inj h] at hrt
      rcases List.mem_singleton.mp hrt with rfl
      exact ⟨Nat.le_add_left 1 s, p0, [], by simp [lexeme, hp], by simp [hu]⟩

theorem stateStep_consume_facts (col : Nat) (state : ScanState) (c : Char) (pref : List Char)
    (st' : ScanState) (ts : List RToken) (hinv : StateInv pref state)
    (h : stateStep col state c = .consume st' ts) :
    (∀ rt ∈ ts, 1 ≤ rt.row ∧ OccursAt (pref ++ [c]) (rt.row - 1) (lexeme rt.tok)) ∧
    StateInv (pref ++ [c]) st' := by
  cases state with
  | none => exact StatePhase.noConfusion h
  | identifier s chars =>
    obtain ⟨p0, hp, hu⟩ := hinv
    simp only [stateStep] at h
    split at h
    · obtain ⟨hst, hts⟩ := StatePhase.consume.inj h
      constructor
      · intro rt hrt
        rw [← hts] at hrt
        exact absurd hrt (List.not_mem_nil rt)
      · rw [← hst]
        exact ⟨p0, by rw [hp, List.append_assoc], hu⟩
    · exact StatePhase.noConfusion h
  | literal s chars =>
    obtain ⟨p0, hp, hu⟩ := hinv
    simp only [stateStep] at h
    split at h
    · obtain ⟨hst, hts⟩ := StatePhase.consume.inj h
      constructor
      · intro rt hrt
        rw [← hts] at hrt
        exact absurd hrt (List.not_mem_nil rt)
      · rw [← hst]
        exact ⟨p0, by rw [hp, List.append_assoc], hu⟩
    · exact StatePhase.noConfusion h
  | minus s =>
    obtain ⟨p0, hp, hu⟩ := hinv
    simp only [stateStep] at h
    split at h
    · rename_i hc
      obtain ⟨hst, hts⟩ := StatePhase.consume.inj h
      refine ⟨?_, by rw [← hst]; trivial⟩
      intro rt hrt
      rw [← hts] at hrt
      rcases List.mem_singleton.mp hrt with rfl
      refine ⟨Nat.le_add_left 1 s, p0, [], ?_, by simp [hu]⟩
      rw [hp, hc]
      simp [lexeme]
    · exact StatePhase.noConfusion h
  | angleOrExclamation s a =>
    obtain ⟨p0, hp, hu⟩ := hinv
    simp only [stateStep] at h
    split at h
    · rename_i hc
      obtain ⟨hst, hts⟩ := StatePhase.consume.inj h
      refine ⟨?_, by rw [← hst]; trivial⟩
      intro rt hrt
      rw [← hts] at hrt
      rcases List.mem_singleton.mp hrt with rfl
      refine ⟨Nat.le_add_left 1 s, p0, [], ?_, by simp [hu]⟩
      rw [hp, hc]
      simp [lexeme]
    · split at h
      · exact StatePhase.noConfusion h
      · exact StatePhase.noConfusion h
  | slash s =>
    simp only [stateStep] at h
    split at h
    · exact StatePhase.noConfusion h
    · exact StatePhase.noConfusion h

theorem freshDispatch_facts (pos : Nat) (c : Char) (pref : List Char) (hpl : unitLen pref = pos) :
    (∀ rt ∈ (freshDispatch pos c).2.1, 1 ≤ rt.row ∧
      OccursAt (pref ++ [c]) (rt.row - 1) (lexeme rt.tok)) ∧
    StateInv (pref ++ [c]) (freshDispatch pos c).1 := by
  have hnil : ∀ rt : RToken, rt ∈ ([] : List RToken) → 1 ≤ rt.row ∧
      OccursAt (pref ++ [c]) (rt.row - 1) (lexeme rt.tok) :=
    fun rt hrt => absurd hrt (List.not_mem_nil rt)
  have hsingle : ∀ tok : Token, lexeme tok = [c] →
      ∀ rt : RToken, rt ∈ [(⟨tok, pos + 1⟩ : RToken)] → 1 ≤ rt.row ∧
        OccursAt (pref ++ [c]) (rt.row - 1) (lexeme rt.tok) := by
    intro tok hlex rt hrt
    rcases List.mem_singleton.mp hrt with rfl
    exact ⟨Nat.le_add_left 1 pos, pref, [], by simp [hlex], by simp [hpl]⟩
  unfold freshDispatch
  split
  · exact ⟨hnil, trivial⟩
  · exact ⟨hnil, pref, rfl, hpl⟩
  · exact ⟨hnil, pref, rfl, hpl⟩
  · exact ⟨hnil, pref, rfl, hpl⟩
  · exact ⟨hnil, pref, rfl, hpl⟩
  · exact ⟨hnil, pref, rfl, hpl⟩
  · exact ⟨hsingle _ rfl, trivial⟩
  · exact ⟨hsingle _ rfl, trivial⟩
  · exact ⟨hsingle _ rfl, trivial⟩
  · exact ⟨hsingle _ rfl, trivial⟩
  · exact ⟨hsingle _ rfl, trivial⟩
  · exact ⟨hsingle _ rfl, trivial⟩
  · exact ⟨hsingle _ rfl, trivial⟩
  · exact ⟨hsingle _ rfl, trivial⟩
  · split
    · exact ⟨hnil, pref, rfl, hpl⟩
    · split
      · exact ⟨hnil, pref, rfl, hpl⟩
      · exact ⟨hnil, trivial⟩

/-- The row-soundness invariant of the per-line scanner: every token a
successful scan emits records in `row` exactly 1 plus the UTF-16-unit
offset at which its lexeme occurs in the scanned text. -/
theorem scanAux_lexemes : ∀ (cs : List Char) (col pos depth : Nat) (state : ScanState)
    (prev : Option Char) (pref : List Char) (toks : List RToken) (d' : Nat),
    scanAux col cs pos depth state prev = .ok (toks, d') →
    unitLen pref = pos →
    StateInv pref state →
    (0 < depth → state = ScanState.none) →
    ∀ rt ∈ toks, 1 ≤ rt.row ∧ OccursAt (pref ++ cs) (rt.row - 1) (lexeme rt.tok) := by
  intro cs
  induction cs with
  | nil =>
    intro col pos depth state prev pref toks d' h hpl hinv hcd rt hrt
    unfold scanAux at h
    split at h
    · have h2 : ([] : List RToken) = toks := congrArg Prod.fst (Except.ok.inj h)
      rw [← h2] at hrt
      exact absurd hrt (List.not_mem_nil rt)
    · obtain ⟨ts, hfl, h⟩ := exceptBind_ok _ _ _ h
      have hts : ts = toks := congrArg Prod.fst (Except.ok.inj h)
      rw [← hts] at hrt
      rw [List.append_nil]
      exact stateFlushEOL_facts col state pref ts hinv hfl rt hrt
  | cons c rest ih =>
    intro col pos depth state prev pref toks d' h hpl hinv hcd rt hrt
    have hext : pref ++ c :: rest = (pref ++ [c]) ++ rest := by simp
    have hpl' : unitLen (pref ++ [c]) = pos + charWidth c := by
      rw [unitLen_append, hpl]
      simp [unitLen]
    unfold scanAux at h
    split at h
    · rename_i hd
      have hst : state = ScanState.none := hcd hd
      rw [hext]
      exact ih col (pos + charWidth c) _ state (some c) (pref ++ [c]) toks d' h
        hpl' (by rw [hst]; trivial) (fun _ => hst) rt hrt
    · rename_i hd0
      split at h
      case _ e heq => exact Except.noConfusion h
      case _ st' ts heq =>
        obtain ⟨tsd, hrec, h⟩ := exceptBind_ok _ _ _ h
        obtain ⟨ts', d''⟩ := tsd
        simp only [] at h
        have h2 : ts ++ ts' = toks := congrArg Prod.fst (Except.ok.inj h)
        obtain ⟨hts_facts, hinv'⟩ := stateStep_consume_facts col state c pref st' ts hinv heq
        rw [← h2] at hrt
        rcases List.mem_append.mp hrt with hmem | hmem
        · obtain ⟨hrow, u, v, hea, hul⟩ := hts_facts rt hmem
          exact ⟨hrow, u, v ++ rest, by rw [hext, hea]; simp, hul⟩
        · rw [hext]
          exact ih col (pos + charWidth c) depth st' (some c) (pref ++ [c]) ts' d'' hrec
            hpl' hinv' (fun hdc => absurd hdc hd0) rt hmem
      case _ heq =>
        rw [hext]
        exact ih col (pos + charWidth c) 1 ScanState.none (some c) (pref ++ [c]) toks d' h
          hpl' trivial (fun _ => rfl) rt hrt
      case _ ts heq =>
        rcases hfd : freshDispatch pos c with ⟨st', ts2, brk⟩
        rw [hfd] at h
        simp only [] at h
        obtain ⟨hts2_facts, hinv'⟩ := freshDispatch_facts pos c pref hpl
        rw [hfd] at hts2_facts hinv'
        simp only [] at hts2_facts hinv'
        have hflush := stateStep_flushed_facts col state c pref ts hinv heq
        split at h
        · have h2 : ts ++ ts2 = toks := congrArg Prod.fst (Except.ok.inj h)
          rw [← h2] at hrt
          rcases List.mem_append.mp hrt with hmem | hmem
          · obtain ⟨hrow, u, v, hea, hul⟩ := hflush rt hmem
            exact ⟨hrow, u, v ++ (c :: rest), by rw [hea]; simp, hul⟩
          · obtain ⟨hrow, u, v, hea, hul⟩ := hts2_facts rt hmem
            exact ⟨hrow, u, v ++ rest, by rw [hext, hea]; simp, hul⟩
        · obtain ⟨tsd, hrec, h⟩ := exceptBind_ok _ _ _ h
          obtain ⟨ts', d''⟩ := tsd
          simp only [] at h
          have h2 : ts ++ ts2 ++ ts' = toks := congrArg Prod.fst (Except.ok.inj h)
          rw [← h2] at hrt
          rcases List.mem_append.mp hrt with hmem | hmem
          · rcases List.mem_append.mp hmem with hmem2 | hmem2
            · obtain ⟨hrow, u, v, hea, hul⟩ := hflush rt hmem2
              exact ⟨hrow, u, v ++ (c :: rest), by rw [hea]; simp, hul⟩
            · obtain ⟨hrow, u, v, hea, hul⟩ := hts2_facts rt hmem2
              exact ⟨hrow, u, v ++ rest, by rw [hext, hea]; simp, hul⟩
          · rw [hext]
            exact ih col (pos + charWidth c) depth st' (some c) (pref ++ [c]) ts' d'' hrec
              hpl' hinv' (fun hdc => absurd hdc hd0) rt hmem

theorem tokeniseAux_rows : ∀ (lines : List (List Char)) (col : Nat) (indents : List Nat)
    (depth : Nat) (ts : List LineToken) (d : Nat),
    tokeniseAux lines col indents depth = .ok (ts, d) →
    ∀ t ∈ ts, col + 1 ≤ t.column ∧
      ∃ raw, lines.get? (t.column - (col + 1)) = some raw ∧ raw ≠ [] ∧
        ∀ rt ∈ t.tokens, 1 ≤ rt.row ∧ OccursAt (trimChars raw) (rt.row - 1) (lexeme rt.tok) := by
  intro lines
  induction lines with
  | nil =>
    intro col indents depth ts d h t ht
    have hts : ([] : List LineToken) = ts := congrArg Prod.fst (Except.ok.inj h)
    rw [← hts] at ht
    exact absurd ht (List.not_mem_nil t)
  | cons raw rest ih =>
    intro col indents depth ts d h t ht
    unfold tokeniseAux at h
    by_cases hraw : raw = []
    · rw [if_pos hraw] at h
      obtain ⟨hcol, raw', hget, hne, hrows⟩ := ih (col + 1) indents depth ts d h t ht
      refine ⟨by omega, raw', ?_, hne, hrows⟩
      have hidx : t.column - (col + 1) = (t.column - (col + 1 + 1)) + 1 := by omega
      rw [hidx, List.get?_cons_succ]
      exact hget
    · rw [if_neg hraw] at h
      obtain ⟨sc, hsc, h⟩ := exceptBind_ok _ _ _ h
      obtain ⟨tokens, depth'⟩ := sc
      obtain ⟨indents', hstep, h⟩ := exceptBind_ok _ _ _ h
      obtain ⟨tsd, hrest, h⟩ := exceptBind_ok _ _ _ h
      obtain ⟨ts', d''⟩ := tsd
      simp only [] at h
      have hshift : ∀ t', t' ∈ ts' → col + 1 ≤ t'.column ∧
          ∃ raw', (raw :: rest).get? (t'.column - (col + 1)) = some raw' ∧ raw' ≠ [] ∧
            ∀ rt ∈ t'.tokens, 1 ≤ rt.row ∧ OccursAt (trimChars raw') (rt.row - 1) (lexeme rt.tok) := by
        intro t' ht'
        obtain ⟨hcol, raw', hget, hne, hrows⟩ := ih (col + 1) indents' depth' ts' d'' hrest t' ht'
        refine ⟨by omega, raw', ?_, hne, hrows⟩
        have hidx : t'.column - (col + 1) = (t'.column - (col + 1 + 1)) + 1 := by omega
        rw [hidx, List.get?_cons_succ]
        exact hget
      split at h
      · have hts : ts' = ts := congrArg Prod.fst (Except.ok.inj h)
        rw [← hts] at ht
        exact hshift t ht
      · have hts : (⟨col + 1, indents'.length - 1, tokens⟩ : LineToken) :: ts' = ts :=
          congrArg Prod.fst (Except.ok.inj h)
        rw [← hts] at ht
        cases ht with
        | head =>
          refine ⟨Nat.le_refl _, raw, ?_, hraw, ?_⟩
          · rw [show col + 1 - (col + 1) = 0 from by omega]
            rfl
          · intro rt hrt
            have := scanAux_lexemes (trimChars raw) col 0 depth ScanState.none Option.none
              [] tokens depth' hsc rfl trivial (fun _ => rfl) rt hrt
            rw [List.nil_append] at this
            exact this
        | tail _ htl => exact hshift t htl

/-- C3 amended: every emitted token's `row` is 1 plus the 0-based
UTF-16-unit offset at which the token's lexeme occurs in the **trimmed**
text of its source line (the tokeniser trims leading and trailing
whitespace before scanning, so — contrary to the original claim — leading
whitespace does not shift the recorded rows). -/
theorem claim3_amended (source : String) (ts : List LineToken)
    (h : tokenise source = .ok ts) :
    ∀ t ∈ ts, 1 ≤ t.column ∧
      ∃ raw, (splitLines source.data).get? (t.column - 1) = some raw ∧ raw ≠ [] ∧
        ∀ rt ∈ t.tokens, 1 ≤ rt.row ∧ OccursAt (trimChars raw) (rt.row - 1) (lexeme rt.tok) := by
  unfold tokenise parseToTokens at h
  obtain ⟨tsd, htk, h⟩ := exceptBind_ok _ _ _ h
  have hts : tsd.1 = ts := by
    rcases tsd with ⟨ts0, d⟩
    simp only [] at h
    split at h
    · split at h <;> exact Except.noConfusion h
    · exact Except.ok.inj h
  intro t ht
  obtain ⟨hcol, raw, hget, hne, hrows⟩ :=
    tokeniseAux_rows (splitLines source.data) 0 [0] 0 tsd.1 tsd.2 (by rw [← htk]) t (hts ▸ ht)
  exact ⟨hcol, raw, hget, hne, hrows⟩

/-- Witness for C3 amended at the two-space source `"  x -> 12"`: the
lexemes `x`, `->`, `12` occur in the trimmed line `x -> 12` at offsets
0, 2 and 5 — exactly `row - 1` for the recorded rows 1, 3 and 6. -/
theorem claim3_amended_witness :
    1 ≤ (1 : Nat) ∧
    ∃ raw, (splitLines ("  x -> 12").data).get? (1 - 1) = some raw ∧ raw ≠ [] ∧
      ∀ rt ∈ [(⟨.identifierToken "x", 1⟩ : RToken), ⟨.assignmentToken, 3⟩,
              ⟨.numericLiteralToken "12", 6⟩],
        1 ≤ rt.row ∧ OccursAt (trimChars raw) (rt.row - 1) (lexeme rt.tok) :=
  claim3_amended "  x -> 12"
    [⟨1, 1, [⟨.identifierToken "x", 1⟩, ⟨.assignmentToken, 3⟩, ⟨.numericLiteralToken "12", 6⟩]⟩]
    rfl
    ⟨1, 1, [⟨.identifierToken "x", 1⟩, ⟨.assignmentToken, 3⟩, ⟨.numericLiteralToken "12", 6⟩]⟩
    (List.mem_singleton.mpr rfl)

end Sunaba
